import Mathlib

/-!
Verification of the archived hash map of this repository
(src/rkyv/src/collections/hash_map/mod.rs).

The archived map is a minimal perfect hash table built by the
compress-hash-displace construction.  We give a shallow embedding of

* the lookup routine ArchivedHashMap::index and the derived operations
  get / get_key_value / contains_key / Index::index,
* the construction routine ArchivedHashMap::serialize_from_iter,
* the raw entry iterator RawIter,

and prove the specification claims about them.

Modelling conventions:

* The key type κ is abstract with decidable equality, matching the
  generic key parameter of the Rust code.  The hash computations are
  abstracted by two functions, exactly the two hashing patterns the
  source uses with its fixed SeaHasher:
  h1 k models hasher(key).finish() (a 64-bit value), and
  h2 s k models hasher(seed-u32, key).finish().  The source is generic
  over the key's Hash implementation, so the embedding is parametric in
  these functions; both construction and lookup use the same ones, as in
  the source.
* Machine integers are Nat with explicit truncation: the u32 cast of a
  displacement or slot index is % 4294967296; 4294967295 is u32::MAX,
  the absence sentinel.
* Rust panics (remainder by zero on an empty map, Option::unwrap on an
  unplaced entry slot, out-of-bounds slice access) are modelled by the
  value none of an Option-typed result.  A lookup hence returns
  Option (Option Nat): none = panic, some none = key absent,
  some (some i) = key found in entry slot i.
* The byte-level serializer is abstracted: the model of
  serialize_from_iter returns the semantic content of the two written
  blocks, the displacements array and the permuted entries array.
-/

namespace Rkyv

/-- Model of the archived hash map: the stored length field and the data
reachable through the two relative pointers, namely the displacements
block (n u32 words) and the entries block (n key-value records). -/
structure ArchivedHashMap (κ ν : Type) where
  len : Nat
  displace : List Nat
  entries : List (κ × ν)

variable {κ ν : Type} [DecidableEq κ]

/-- Model of ArchivedHashMap::index.  Returns none on panic (remainder
by zero when len = 0) or on an out-of-bounds read (unsafe in the
source, impossible for well-formed archives); some none when the key is
absent; some (some i) when the stored key of entry slot i equals `k`. -/
def index (h1 : κ → Nat) (h2 : Nat → κ → Nat)
    (m : ArchivedHashMap κ ν) (k : κ) : Option (Option Nat) :=
  if m.len = 0 then none
  else
    match m.displace[h1 k % m.len]? with
    | none => none
    | some d =>
      if d = 4294967295 then some none
      else
        let i := if d.testBit 31 then h2 d k % m.len else d
        match m.entries[i]? with
        | none => none
        | some e => if e.1 = k then some (some i) else some none

/-- Model of ArchivedHashMap::get. -/
def get (h1 : κ → Nat) (h2 : Nat → κ → Nat)
    (m : ArchivedHashMap κ ν) (k : κ) : Option (Option ν) :=
  match index h1 h2 m k with
  | none => none
  | some none => some none
  | some (some i) =>
    match m.entries[i]? with
    | none => none
    | some e => some (some e.2)

/-- Model of ArchivedHashMap::get_key_value. -/
def get_key_value (h1 : κ → Nat) (h2 : Nat → κ → Nat)
    (m : ArchivedHashMap κ ν) (k : κ) : Option (Option (κ × ν)) :=
  match index h1 h2 m k with
  | none => none
  | some none => some none
  | some (some i) =>
    match m.entries[i]? with
    | none => none
    | some e => some (some e)

/-- Model of ArchivedHashMap::contains_key. -/
def contains_key (h1 : κ → Nat) (h2 : Nat → κ → Nat)
    (m : ArchivedHashMap κ ν) (k : κ) : Option Bool :=
  (index h1 h2 m k).map Option.isSome

/-- Model of the Index impl, self.get(key).unwrap(): the unwrap turns
absence into a panic, so both panic and absence collapse to none. -/
def index_op (h1 : κ → Nat) (h2 : Nat → κ → Nat)
    (m : ArchivedHashMap κ ν) (k : κ) : Option ν :=
  (get h1 h2 m k).bind id

/-- First phase of serialize_from_iter: for each pair, the first-level
hash (hasher.finish() % len) as u32, paired with the entry. -/
def displacesOf (h1 : κ → Nat) (len : Nat) (pairs : List (κ × ν)) :
    List (Nat × κ × ν) :=
  pairs.map fun kv => ((h1 kv.1 % len) % 4294967296, kv)

/-- Model of the bucket_size vector: the count of entries whose
first-level hash is d. -/
def bucket_size (displaces : List (Nat × κ × ν)) (d : Nat) : Nat :=
  displaces.countP fun z => z.1 == d

/-- Sort key of the builder, sort_by_key (Reverse(bucket_size[d]), d):
descending bucket size, ties broken by ascending bucket id. -/
def chd_le (bs : Nat → Nat) (x y : Nat × κ × ν) : Bool :=
  decide (bs y.1 < bs x.1 ∨ (bs x.1 = bs y.1 ∧ x.1 ≤ y.1))

/-- Insertion step of the stable sort: x is placed before the first
element y with le x y, hence after every strictly smaller element and
before all elements of equal key that were inserted earlier. -/
def insertSorted (le : α → α → Bool) (x : α) : List α → List α
  | [] => [x]
  | y :: t => if le x y then x :: y :: t else y :: insertSorted le x t

/-- Model of the stable Vec::sort_by_key.  A stable sort is determined
extensionally by its comparator, so stable insertion sort computes the
same list as the source's stable sort. -/
def sortByKey (le : α → α → Bool) : List α → List α
  | [] => []
  | x :: t => insertSorted le x (sortByKey le t)

/-- Inner loop of the seed search: compute the second-level slot of each
bucket member and fail if it is occupied or already assigned to an
earlier member for this seed.  Returns the accumulated assignments. -/
def trySeed (h2 : Nat → κ → Nat) (len : Nat)
    (entries : List (Option (κ × ν))) (seed : Nat) :
    List (Nat × κ × ν) → List Nat → Option (List Nat)
  | [], acc => some acc
  | z :: rest, acc =>
    if (entries.getD (h2 seed z.2.1 % len) none).isSome
        || acc.contains (h2 seed z.2.1 % len) then none
    else trySeed h2 len entries seed rest (acc ++ [h2 seed z.2.1 % len])

/-- Model of the for-loop over seeds: try successive seeds starting at
`seed`, giving up (without any error) after `fuel` candidates.  The
source iterates seed over 0x80000000..=0xFFFFFFFF, i.e. starts at
2147483648 with fuel 2147483648. -/
def findSeed (h2 : Nat → κ → Nat) (len : Nat)
    (entries : List (Option (κ × ν))) (bucket : List (Nat × κ × ν)) :
    Nat → Nat → Option (Nat × List Nat)
  | _, 0 => none
  | seed, fuel + 1 =>
    match trySeed h2 len entries seed bucket [] with
    | some a => some (seed, a)
    | none => findSeed h2 len entries bucket (seed + 1) fuel

/-- Placement of a whole bucket at the slots chosen by the seed search:
entries[assignments[i]] = Some(bucket[i]). -/
def placeAll (entries : List (Option (κ × ν))) :
    List Nat → List (Nat × κ × ν) → List (Option (κ × ν))
  | [], _ => entries
  | _ :: _, [] => entries
  | i :: is, z :: zs => placeAll (entries.set i (some z.2)) is zs

/-- Model of the main placement loop of serialize_from_iter.  The input
list is the sorted displaces vector, consumed bucket by bucket; the
bucket of the head element consists of the next bs d elements.  Returns
none exactly where the source panics: an empty bucket group (bucket[0]
out of bounds, only possible for inconsistent bs) or a singleton bucket
with no empty slot at or after first_empty (position().unwrap()).  The
structural fuel argument bounds the number of loop iterations; every
iteration consumes at least one element of the list (or panics), so the
fuel-exhaustion branch is unreachable when fuel is at least the list
length, which is how serialize_from_iter calls it. -/
def placeBuckets (h2 : Nat → κ → Nat) (len : Nat) (bs : Nat → Nat) :
    Nat → List (Nat × κ × ν) → List (Option (κ × ν)) → List Nat → Nat →
    Option (List (Option (κ × ν)) × List Nat)
  | _, [], entries, displacements, _ => some (entries, displacements)
  | 0, _ :: _, _, _, _ => none
  | fuel + 1, z :: rest, entries, displacements, first_empty =>
    if 1 < bs z.1 then
      match findSeed h2 len entries ((z :: rest).take (bs z.1)) 2147483648 2147483648 with
      | some (seed, assignments) =>
        placeBuckets h2 len bs fuel ((z :: rest).drop (bs z.1))
          (placeAll entries assignments ((z :: rest).take (bs z.1)))
          (displacements.set z.1 seed) first_empty
      | none =>
        placeBuckets h2 len bs fuel ((z :: rest).drop (bs z.1)) entries displacements first_empty
    else if bs z.1 = 0 then none
    else
      match (entries.drop first_empty).findIdx? fun e => e.isNone with
      | none => none
      | some offset =>
        placeBuckets h2 len bs fuel rest
          (entries.set (first_empty + offset) (some z.2))
          (displacements.set z.1 ((first_empty + offset) % 4294967296))
          (first_empty + offset + 1)

/-- Model of the archiving pass entries.iter().map(|e| e.unwrap()):
panics (none) as soon as one slot was never filled. -/
def unwrapEntries : List (Option (κ × ν)) → Option (List (κ × ν))
  | [] => some []
  | none :: _ => none
  | some e :: rest => (unwrapEntries rest).map (e :: ·)

/-- Model of ArchivedHashMap::serialize_from_iter.  The result none
models a panic; on success the semantic content of the archive is
returned: the displacements block and the permuted entries block.  The
initial remainder by len is a Rust panic when len = 0 and the iterator
is non-empty. -/
def serialize_from_iter (h1 : κ → Nat) (h2 : Nat → κ → Nat)
    (pairs : List (κ × ν)) (len : Nat) :
    Option (List Nat × List (κ × ν)) :=
  if len = 0 ∧ pairs.isEmpty = false then none
  else
    match placeBuckets h2 len (bucket_size (displacesOf h1 len pairs))
        pairs.length
        (sortByKey (chd_le (bucket_size (displacesOf h1 len pairs)))
          (displacesOf h1 len pairs))
        (List.replicate len none) (List.replicate len 4294967295) 0 with
    | none => none
    | some (entries, displacements) =>
      match unwrapEntries entries with
      | none => none
      | some es => some (displacements, es)

/-- Model of RawIter: reads `remaining` successive entry records
starting at offset `cur` of the entries block.  An out-of-bounds read
(unsafe pointer arithmetic in the source) stops the model. -/
def RawIter.toList (entries : List (κ × ν)) (cur : Nat) : Nat → List (κ × ν)
  | 0 => []
  | r + 1 =>
    match entries[cur]? with
    | none => []
    | some e => e :: RawIter.toList entries (cur + 1) r

/-- Model of ArchivedHashMap::iter: a RawIter over the entries block
with remaining = len. -/
def iter (m : ArchivedHashMap κ ν) : List (κ × ν) :=
  RawIter.toList m.entries 0 m.len

/-- Entry slots currently filled, in slot order. -/
def occupied (entries : List (Option (κ × ν))) : List (κ × ν) :=
  entries.filterMap id

/-- The lookup dispatch reaches entry slot i for key k: the displacement
word of k's first-level bucket is either a direct index equal to i (high
bit clear, as the value is below 2^31) or a seed (in [2^31, 2^32)) whose
second-level hash of k is i. -/
def slotGood (h1 : κ → Nat) (h2 : Nat → κ → Nat) (n : Nat) (displs : List Nat)
    (i : Nat) (k : κ) : Prop :=
  ∃ D, displs[h1 k % n]? = some D ∧
    ((D = i ∧ D < 2147483648) ∨
      (2147483648 ≤ D ∧ D < 4294967296 ∧ h2 D k % n = i))

/-- Loop invariant of the placement loop.  rest is the unprocessed
suffix of the sorted displaces list, done the processed prefix. -/
structure PlaceInv (h1 : κ → Nat) (h2 : Nat → κ → Nat) (n : Nat) (bs : Nat → Nat)
    (rest done : List (Nat × κ × ν)) (entries : List (Option (κ × ν)))
    (displs : List Nat) (fe : Nat) : Prop where
  entries_len : entries.length = n
  displs_len : displs.length = n
  sorted : rest.Pairwise fun a b => chd_le bs a b = true
  rest_valid : ∀ z ∈ rest, z.1 = h1 z.2.1 % n
  counts : ∀ d : Nat, rest.countP (fun w => w.1 == d) = bs d ∨
    rest.countP (fun w => w.1 == d) = 0
  rest_sentinel : ∀ z ∈ rest, displs[z.1]? = some 4294967295
  slot_good : ∀ i : Nat, ∀ e : κ × ν, entries[i]? = some (some e) →
    slotGood h1 h2 n displs i e.1
  slot_closed : ∀ i : Nat, ∀ e : κ × ν, entries[i]? = some (some e) →
    rest.countP (fun w => w.1 == h1 e.1 % n) = 0
  occ_sub : (occupied entries : Multiset (κ × ν)) ≤ ↑(done.map fun z => z.2)
  displ_range : ∀ j D : Nat, displs[j]? = some D →
    D = 4294967295 ∨ D < n ∨ (2147483648 ≤ D ∧ D < 4294967296)
  empty_sent : ∀ j : Nat, j < n → bs j = 0 → displs[j]? = some 4294967295
  low_full : ∀ j : Nat, j < fe → ∃ e : κ × ν, entries[j]? = some (some e)
  seeded : ((∀ d : Nat, d < n → bs d ≠ 0 → rest.countP (fun w => w.1 == d) = 0 →
        ∃ D, displs[d]? = some D ∧
          ((1 < bs d ∧ 2147483648 ≤ D ∧ D < 4294967296) ∨ (bs d = 1 ∧ D < n))) ∧
      (occupied entries).length = done.length) ∨
    (occupied entries).length < done.length

/-- Specification-side description of the lookup dispatch, written from
the spec sentence of C4: compute d_idx = h1(k) mod n, read
d = displacements[d_idx]; sentinel means absent with no key comparison;
high bit clear means the candidate slot is d itself; high bit set means
the candidate slot is h2(d, k) mod n; the key is present exactly when
the stored key at the candidate slot equals k. -/
def index_spec (h1 : κ → Nat) (h2 : Nat → κ → Nat)
    (m : ArchivedHashMap κ ν) (k : κ) : Option Nat :=
  let d := m.displace.getD (h1 k % m.len) 0
  if d = 4294967295 then none
  else
    let c := if d < 2147483648 then d else h2 d k % m.len
    match m.entries[c]? with
    | none => none
    | some e => if e.1 = k then some c else none

/-- Cost instrumentation of ArchivedHashMap::index: the pair counts the
hash computations (hasher finish calls) and the key comparisons the
lookup performs, mirroring the branch structure of index. -/
def index_cost (h1 : κ → Nat) (h2 : Nat → κ → Nat)
    (m : ArchivedHashMap κ ν) (k : κ) : Nat × Nat :=
  if m.len = 0 then (1, 0)
  else
    match m.displace[h1 k % m.len]? with
    | none => (1, 0)
    | some d =>
      if d = 4294967295 then (1, 0)
      else
        match m.entries[if d.testBit 31 then h2 d k % m.len else d]? with
        | none => (if d.testBit 31 then 2 else 1, 0)
        | some _ => (if d.testBit 31 then 2 else 1, 1)

section SortLemmas

variable {α : Type} {le : α → α → Bool}

theorem insertSorted_perm (le : α → α → Bool) (x : α) :
    ∀ l : List α, List.Perm (insertSorted le x l) (x :: l) := by
  intro l
  induction l with
  | nil => exact List.Perm.refl _
  | cons y t ih =>
    rw [insertSorted]
    split
    · exact List.Perm.refl _
    · exact (ih.cons y).trans (List.Perm.swap x y t)

theorem sortByKey_perm (le : α → α → Bool) :
    ∀ l : List α, List.Perm (sortByKey le l) l := by
  intro l
  induction l with
  | nil => exact List.Perm.refl _
  | cons x t ih =>
    rw [sortByKey]
    exact (insertSorted_perm le x (sortByKey le t)).trans (ih.cons x)

theorem mem_insertSorted {x a : α} {l : List α} :
    a ∈ insertSorted le x l ↔ a = x ∨ a ∈ l := by
  rw [(insertSorted_perm le x l).mem_iff, List.mem_cons]

theorem pairwise_insertSorted
    (htrans : ∀ a b c, le a b = true → le b c = true → le a c = true)
    (htotal : ∀ a b, le a b = true ∨ le b a = true)
    {x : α} {l : List α} (h : l.Pairwise fun a b => le a b = true) :
    (insertSorted le x l).Pairwise fun a b => le a b = true := by
  induction l with
  | nil => simp [insertSorted]
  | cons y t ih =>
    rw [insertSorted]
    rcases List.pairwise_cons.mp h with ⟨hy, ht⟩
    split
    · rename_i hxy
      refine List.pairwise_cons.mpr ⟨?_, h⟩
      intro b hb
      rcases List.mem_cons.mp hb with rfl | hb
      · exact hxy
      · exact htrans x y b hxy (hy b hb)
    · rename_i hxy
      have hyx : le y x = true := by
        rcases htotal x y with h' | h'
        · exact absurd h' hxy
        · exact h'
      refine List.pairwise_cons.mpr ⟨?_, ih ht⟩
      intro b hb
      rcases mem_insertSorted.mp hb with rfl | hb
      · exact hyx
      · exact hy b hb

theorem pairwise_sortByKey
    (htrans : ∀ a b c, le a b = true → le b c = true → le a c = true)
    (htotal : ∀ a b, le a b = true ∨ le b a = true) :
    ∀ l : List α, (sortByKey le l).Pairwise fun a b => le a b = true := by
  intro l
  induction l with
  | nil => simp [sortByKey]
  | cons x t ih =>
    rw [sortByKey]
    exact pairwise_insertSorted htrans htotal ih

theorem filter_insertSorted_pos {p : α → Bool}
    (hp : ∀ a b, p a = true → p b = true → le a b = true)
    {x : α} (hx : p x = true) :
    ∀ l : List α, (insertSorted le x l).filter p = x :: l.filter p := by
  intro l
  induction l with
  | nil => simp [insertSorted, hx]
  | cons y t ih =>
    rw [insertSorted]
    split
    · simp [List.filter_cons, hx]
    · rename_i hxy
      have hpy : p y = false := by
        cases hy : p y
        · rfl
        · exact absurd (hp x y hx hy) hxy
      simp [List.filter_cons, hpy, ih]

theorem filter_insertSorted_neg {p : α → Bool} {x : α} (hx : p x = false) :
    ∀ l : List α, (insertSorted le x l).filter p = l.filter p := by
  intro l
  induction l with
  | nil => simp [insertSorted, hx]
  | cons y t ih =>
    rw [insertSorted]
    split
    · simp [List.filter_cons, hx]
    · simp [List.filter_cons, ih]

/-- Stability of the modelled sort: the relative order of elements of
one equivalence class of the comparator is the input order. -/
theorem filter_sortByKey {p : α → Bool}
    (hp : ∀ a b, p a = true → p b = true → le a b = true) :
    ∀ l : List α, (sortByKey le l).filter p = l.filter p := by
  intro l
  induction l with
  | nil => rfl
  | cons x t ih =>
    rw [sortByKey]
    cases hx : p x
    · rw [filter_insertSorted_neg hx, ih]
      simp [List.filter_cons, hx]
    · rw [filter_insertSorted_pos hp hx, ih]
      simp [List.filter_cons, hx]

end SortLemmas

section ChdLeLemmas

variable {bs : Nat → Nat}

theorem chd_le_total (x y : Nat × κ × ν) :
    chd_le bs x y = true ∨ chd_le bs y x = true := by
  simp only [chd_le, decide_eq_true_eq]
  omega

theorem chd_le_trans (x y w : Nat × κ × ν)
    (h1 : chd_le bs x y = true) (h2 : chd_le bs y w = true) :
    chd_le bs x w = true := by
  simp only [chd_le, decide_eq_true_eq] at *
  omega

theorem chd_le_antisymm {x y : Nat × κ × ν}
    (h1 : chd_le bs x y = true) (h2 : chd_le bs y x = true) : x.1 = y.1 := by
  simp only [chd_le, decide_eq_true_eq] at *
  omega

theorem chd_le_of_fst_eq {x y : Nat × κ × ν} (h : x.1 = y.1) :
    chd_le bs x y = true := by
  simp [chd_le, h]

end ChdLeLemmas

section ChunkLemmas

/-- In a list where no element satisfying p follows one that does not,
the elements satisfying p form a prefix of length countP p. -/
theorem take_countP_of_pairwise {α : Type} {p : α → Bool} :
    ∀ {l : List α}, (l.Pairwise fun a b => p b = true → p a = true) →
      (∀ a ∈ l.take (l.countP p), p a = true) ∧
        ∀ a ∈ l.drop (l.countP p), p a = false := by
  intro l
  induction l with
  | nil => simp
  | cons x t ih =>
    intro h
    rcases List.pairwise_cons.mp h with ⟨hx, ht⟩
    cases hpx : p x
    · have hall : ∀ a ∈ t, p a = false := by
        intro a ha
        cases hpa : p a
        · rfl
        · rw [hx a ha hpa] at hpx
          exact absurd hpx (by simp)
      have hc : (x :: t).countP p = 0 := by
        rw [List.countP_eq_zero]
        intro a ha
        rcases List.mem_cons.mp ha with rfl | ha
        · simp [hpx]
        · simp [hall a ha]
      rw [hc]
      refine ⟨by simp, ?_⟩
      intro a ha
      rcases List.mem_cons.mp (by simpa using ha) with rfl | ha
      · exact hpx
      · exact hall a ha
    · have hc : (x :: t).countP p = t.countP p + 1 := by
        simp [List.countP_cons, hpx]
      rw [hc]
      rcases ih ht with ⟨h1, h2⟩
      constructor
      · intro a ha
        rw [List.take_succ_cons] at ha
        rcases List.mem_cons.mp ha with rfl | ha
        · exact hpx
        · exact h1 a ha
      · intro a ha
        rw [List.drop_succ_cons] at ha
        exact h2 a ha

/-- In a chd_le-sorted list, all elements whose bucket id equals the
head's bucket id form a prefix whose length is that bucket's
multiplicity in the list. -/
theorem group_chunk {bs : Nat → Nat} {z : Nat × κ × ν} {rest : List (Nat × κ × ν)}
    (h : (z :: rest).Pairwise fun a b => chd_le bs a b = true) :
    (∀ a ∈ (z :: rest).take ((z :: rest).countP fun w => w.1 == z.1),
        a.1 = z.1) ∧
      ∀ a ∈ (z :: rest).drop ((z :: rest).countP fun w => w.1 == z.1),
        a.1 ≠ z.1 := by
  have hpw : (z :: rest).Pairwise
      fun a b => (b.1 == z.1) = true → (a.1 == z.1) = true := by
    rcases List.pairwise_cons.mp h with ⟨hz, ht⟩
    refine List.pairwise_cons.mpr ⟨fun b _ _ => by simp, ?_⟩
    refine List.Pairwise.imp_of_mem ?_ ht
    intro a b ha hb hab hbz
    have hbz' : b.1 = z.1 := by simpa using hbz
    have h1 : chd_le bs z a = true := hz a ha
    have h2 : chd_le bs b z = true := chd_le_of_fst_eq hbz'
    have h3 : chd_le bs a z = true := chd_le_trans a b z hab h2
    simpa using chd_le_antisymm h3 h1
  rcases take_countP_of_pairwise hpw with ⟨h1, h2⟩
  constructor
  · intro a ha
    simpa using h1 a ha
  · intro a ha
    have := h2 a ha
    simpa using this

end ChunkLemmas

section SeedLemmas

variable {h2 : Nat → κ → Nat} {len : Nat} {entries : List (Option (κ × ν))}

theorem trySeed_eq_some {seed : Nat} :
    ∀ {bucket : List (Nat × κ × ν)} {acc r : List Nat},
      trySeed h2 len entries seed bucket acc = some r →
      r = acc ++ bucket.map (fun w => h2 seed w.2.1 % len) ∧
        (acc.Nodup → r.Nodup) ∧
        ∀ w ∈ bucket, entries.getD (h2 seed w.2.1 % len) none = none := by
  intro bucket
  induction bucket with
  | nil =>
    intro acc r hr
    rw [trySeed] at hr
    obtain rfl : acc = r := Option.some.inj hr
    exact ⟨by simp, fun h => h, by simp⟩
  | cons w bucket ih =>
    intro acc r hr
    rw [trySeed] at hr
    split at hr
    · exact absurd hr (by simp)
    · rename_i hguard
      rw [Bool.or_eq_true, not_or] at hguard
      rcases hguard with ⟨hempty, hmem⟩
      have hmem' : (h2 seed w.2.1 % len) ∉ acc := by
        simpa using hmem
      have hempty' : entries.getD (h2 seed w.2.1 % len) none = none := by
        cases hgd : entries.getD (h2 seed w.2.1 % len) none
        · rfl
        · rw [hgd] at hempty
          simp at hempty
      rcases ih hr with ⟨h1, h2', h3⟩
      refine ⟨by simpa using h1, fun hnd => ?_, ?_⟩
      · refine h2' ?_
        rw [List.nodup_append]
        refine ⟨hnd, by simp, ?_⟩
        intro a ha hb
        rw [List.mem_singleton] at hb
        subst hb
        exact hmem' ha
      · intro v hv
        rcases List.mem_cons.mp hv with rfl | hv
        · exact hempty'
        · exact h3 v hv

theorem findSeed_eq_some {bucket : List (Nat × κ × ν)} :
    ∀ {fuel seed0 s : Nat} {a : List Nat},
      findSeed h2 len entries bucket seed0 fuel = some (s, a) →
      seed0 ≤ s ∧ s < seed0 + fuel ∧
        trySeed h2 len entries s bucket [] = some a ∧
        ∀ t, seed0 ≤ t → t < s → trySeed h2 len entries t bucket [] = none := by
  intro fuel
  induction fuel with
  | zero =>
    intro seed0 s a h
    rw [findSeed] at h
    exact absurd h (by simp)
  | succ fuel ih =>
    intro seed0 s a h
    rw [findSeed] at h
    split at h
    · rename_i a' ha'
      have hinj := Option.some.inj h
      obtain rfl : seed0 = s := congrArg Prod.fst hinj
      obtain rfl : a' = a := congrArg Prod.snd hinj
      exact ⟨Nat.le_refl _, by omega, ha',
        fun t h1 h2 => absurd (Nat.lt_of_le_of_lt h1 h2) (Nat.lt_irrefl _)⟩
    · rename_i hnone
      rcases ih h with ⟨h1, h2', h3, h4⟩
      refine ⟨by omega, by omega, h3, ?_⟩
      intro t ht1 ht2
      rcases Nat.eq_or_lt_of_le ht1 with rfl | ht1'
      · exact hnone
      · exact h4 t ht1' ht2

theorem findSeed_last {bucket : List (Nat × κ × ν)} :
    ∀ {fuel seed0 : Nat} {a : List Nat}, 0 < fuel →
      (∀ t, seed0 ≤ t → t + 1 < seed0 + fuel →
        trySeed h2 len entries t bucket [] = none) →
      trySeed h2 len entries (seed0 + fuel - 1) bucket [] = some a →
      findSeed h2 len entries bucket seed0 fuel = some (seed0 + fuel - 1, a) := by
  intro fuel
  induction fuel with
  | zero =>
    intro seed0 a h
    exact absurd h (by simp)
  | succ fuel ih =>
    intro seed0 a _ hfail hok
    rw [findSeed]
    rcases Nat.eq_zero_or_pos fuel with rfl | hf
    · have heq0 : seed0 + 1 - 1 = seed0 := by omega
      rw [heq0] at hok
      rw [hok, heq0]
    · have h0 : trySeed h2 len entries seed0 bucket [] = none := by
        refine hfail seed0 (Nat.le_refl _) (by omega)
      rw [h0]
      have heq : seed0 + 1 + fuel - 1 = seed0 + (fuel + 1) - 1 := by omega
      have := @ih (seed0 + 1) a hf
        (fun t ht1 ht2 => hfail t (by omega) (by omega)) (by rw [heq]; exact hok)
      rw [this, heq]

end SeedLemmas

section PlaceAllLemmas

theorem placeAll_length :
    ∀ (as : List Nat) (zs : List (Nat × κ × ν)) (entries : List (Option (κ × ν))),
      (placeAll entries as zs).length = entries.length := by
  intro as
  induction as with
  | nil =>
    intro zs entries
    rw [placeAll]
  | cons a as ih =>
    intro zs entries
    cases zs with
    | nil => rw [placeAll]
    | cons z zs => rw [placeAll, ih, List.length_set]

theorem placeAll_getElem_notMem {i : Nat} :
    ∀ {as : List Nat} {zs : List (Nat × κ × ν)} {entries : List (Option (κ × ν))},
      i ∉ as → (placeAll entries as zs)[i]? = entries[i]? := by
  intro as
  induction as with
  | nil =>
    intro zs entries _
    rw [placeAll]
  | cons a as ih =>
    intro zs entries hmem
    cases zs with
    | nil => rw [placeAll]
    | cons z zs =>
      rw [placeAll, ih (fun h => hmem (List.mem_cons_of_mem a h))]
      refine List.getElem?_set_ne ?_
      intro h
      exact hmem (by rw [← h]; exact List.mem_cons_self a as)

theorem placeAll_getElem_mem {j : Nat} :
    ∀ {as : List Nat} {zs : List (Nat × κ × ν)} {entries : List (Option (κ × ν))}
      {i : Nat} {z : Nat × κ × ν},
      as.Nodup → as[j]? = some i → zs[j]? = some z → i < entries.length →
      (placeAll entries as zs)[i]? = some (some z.2) := by
  induction j with
  | zero =>
    intro as zs entries i z hnd ha hz hlen
    cases as with
    | nil => simp at ha
    | cons a as =>
      cases zs with
      | nil => simp at hz
      | cons z0 zs =>
        obtain rfl : a = i := by simpa using ha
        obtain rfl : z0 = z := by simpa using hz
        rw [placeAll, placeAll_getElem_notMem (List.nodup_cons.mp hnd).1]
        rw [List.getElem?_set_self (by simpa using hlen)]
  | succ j ih =>
    intro as zs entries i z hnd ha hz hlen
    cases as with
    | nil => simp at ha
    | cons a as =>
      cases zs with
      | nil => simp at hz
      | cons z0 zs =>
        rw [List.getElem?_cons_succ] at ha hz
        rw [placeAll]
        exact ih (List.nodup_cons.mp hnd).2 ha hz (by simpa using hlen)

theorem occupied_set_of_none :
    ∀ {entries : List (Option (κ × ν))} {i : Nat} {p : κ × ν},
      entries[i]? = some none →
      List.Perm (occupied (entries.set i (some p))) (p :: occupied entries) := by
  intro entries
  induction entries with
  | nil =>
    intro i p h
    simp at h
  | cons e t ih =>
    intro i p h
    cases i with
    | zero =>
      obtain rfl : e = none := by simpa using h
      simp only [List.set_cons_zero, occupied, List.filterMap_cons]
      exact List.Perm.refl _
    | succ i =>
      rw [List.getElem?_cons_succ] at h
      rw [List.set_cons_succ]
      cases e with
      | none =>
        simpa [occupied, List.filterMap_cons] using ih h
      | some q =>
        simp only [occupied, List.filterMap_cons]
        exact ((ih h).cons q).trans (List.Perm.swap p q _)

theorem occupied_placeAll :
    ∀ {as : List Nat} {zs : List (Nat × κ × ν)} {entries : List (Option (κ × ν))},
      as.Nodup → (∀ i ∈ as, entries[i]? = some none) → as.length = zs.length →
      List.Perm (occupied (placeAll entries as zs))
        (zs.map (fun z => z.2) ++ occupied entries) := by
  intro as
  induction as with
  | nil =>
    intro zs entries _ _ hlen
    obtain rfl : zs = [] := List.eq_nil_of_length_eq_zero hlen.symm
    rw [placeAll]
    exact List.Perm.refl _
  | cons a as ih =>
    intro zs entries hnd hempty hlen
    cases zs with
    | nil => simp at hlen
    | cons z zs =>
      rw [placeAll]
      have ha : entries[a]? = some none := hempty a (List.mem_cons_self a as)
      have hrest : ∀ i ∈ as, (entries.set a (some z.2))[i]? = some none := by
        intro i hi
        have hne : a ≠ i := by
          intro h
          exact (List.nodup_cons.mp hnd).1 (by rw [h]; exact hi)
        rw [List.getElem?_set_ne hne]
        exact hempty i (List.mem_cons_of_mem a hi)
      have h1 := ih (List.nodup_cons.mp hnd).2 hrest (by simpa using hlen)
      have h2 := occupied_set_of_none (i := a) (p := z.2) ha
      exact h1.trans ((List.Perm.append_left _ h2).trans List.perm_middle)

end PlaceAllLemmas

section MiscLemmas

theorem unwrapEntries_eq_some :
    ∀ {entries : List (Option (κ × ν))} {es : List (κ × ν)},
      unwrapEntries entries = some es ↔ entries = es.map some := by
  intro entries
  induction entries with
  | nil =>
    intro es
    constructor
    · intro h
      obtain rfl : ([] : List (κ × ν)) = es := Option.some.inj h
      rfl
    · intro h
      obtain rfl : es = [] := by simpa using h.symm
      rfl
  | cons e t ih =>
    intro es
    cases e with
    | none =>
      rw [unwrapEntries]
      constructor
      · intro h
        simp at h
      · intro h
        cases es with
        | nil => simp at h
        | cons f fs => simp at h
    | some q =>
      rw [unwrapEntries]
      constructor
      · intro h
        rw [Option.map_eq_some'] at h
        rcases h with ⟨ws, hws, rfl⟩
        rw [List.map_cons, ← ih.mp hws]
      · intro h
        cases es with
        | nil => simp at h
        | cons f fs =>
          rw [List.map_cons] at h
          rcases List.cons_eq_cons.mp h with ⟨h1, h2⟩
          obtain rfl : q = f := Option.some.inj h1
          rw [ih.mpr h2]
          rfl

theorem RawIter_toList_eq {entries : List (κ × ν)} :
    ∀ {r cur : Nat}, cur + r ≤ entries.length →
      RawIter.toList entries cur r = (entries.drop cur).take r := by
  intro r
  induction r with
  | zero =>
    intro cur _
    rw [RawIter.toList]
    simp
  | succ r ih =>
    intro cur h
    have hcur : cur < entries.length := by omega
    rw [RawIter.toList, List.getElem?_eq_getElem hcur,
      List.drop_eq_getElem_cons hcur, List.take_succ_cons, ih (by omega)]

/-- iter reads the whole entries block in storage order when the stored
length matches the entries block length. -/
theorem iter_eq_entries {m : ArchivedHashMap κ ν} (h : m.len = m.entries.length) :
    iter m = m.entries := by
  rw [iter, RawIter_toList_eq (by omega), List.drop_zero, h, List.take_length]

end MiscLemmas

section InvariantLemmas

variable {h1 : κ → Nat} {h2 : Nat → κ → Nat} {n : Nat} {bs : Nat → Nat}

/-- The invariant holds at loop entry, for the sorted displaces list of
any input whose length is n. -/
theorem placeInv_init {pairs : List (κ × ν)} (hn : 0 < n)
    (hn32 : n ≤ 2147483648) (hlen : pairs.length = n)
    (hbs : bs = bucket_size (displacesOf h1 n pairs)) :
    PlaceInv h1 h2 n bs
      (sortByKey (chd_le bs) (displacesOf h1 n pairs)) []
      (List.replicate n (none : Option (κ × ν))) (List.replicate n 4294967295) 0 := by
  have hperm := sortByKey_perm (chd_le bs) (displacesOf h1 n pairs)
  have hvalid : ∀ z ∈ displacesOf h1 n pairs, z.1 = h1 z.2.1 % n := by
    intro z hz
    rw [displacesOf, List.mem_map] at hz
    rcases hz with ⟨kv, _, rfl⟩
    have := Nat.mod_lt (h1 kv.1) hn
    exact Nat.mod_eq_of_lt (by omega)
  refine ⟨?_, ?_, ?_, ?_, ?_, ?_, ?_, ?_, ?_, ?_, ?_, ?_, ?_⟩
  · exact List.length_replicate n none
  · exact List.length_replicate n 4294967295
  · exact pairwise_sortByKey (chd_le_trans) (fun a b => chd_le_total a b) _
  · intro z hz
    exact hvalid z (hperm.mem_iff.mp hz)
  · intro d
    left
    rw [hperm.countP_eq, hbs, bucket_size]
  · intro z hz
    have hz' : z.1 = h1 z.2.1 % n := hvalid z (hperm.mem_iff.mp hz)
    rw [List.getElem?_replicate]
    have : z.1 < n := by
      rw [hz']
      exact Nat.mod_lt _ hn
    simp [this]
  · intro i e h
    rw [List.getElem?_replicate] at h
    split at h
    · simp at h
    · simp at h
  · intro i e h
    rw [List.getElem?_replicate] at h
    split at h
    · simp at h
    · simp at h
  · simp [occupied]
  · intro j D h
    rw [List.getElem?_replicate] at h
    split at h
    · simp at h
      omega
    · simp at h
  · intro j hj _
    rw [List.getElem?_replicate]
    simp [hj]
  · intro j hj
    omega
  · left
    constructor
    · intro d _ hbs0 hcount
      exfalso
      apply hbs0
      rw [hperm.countP_eq] at hcount
      rw [hbs, bucket_size]
      exact hcount
    · simp [occupied]

theorem getElem?_of_getD_none {entries : List (Option (κ × ν))} {i : Nat}
    (hlen : i < entries.length) (h : entries.getD i none = none) :
    entries[i]? = some none := by
  rw [List.getD_eq_getElem?_getD] at h
  rcases hx : entries[i]? with _ | x
  · rw [List.getElem?_eq_none_iff] at hx
    omega
  · rw [hx] at h
    simpa using h

/-- Structure of the current bucket: in the sorted list, the first
bs z.1 elements are exactly the members of bucket z.1, and the counts
of all other buckets are unchanged in the remainder. -/
theorem bucket_split {bs : Nat → Nat} {z : Nat × κ × ν} {rest' : List (Nat × κ × ν)}
    (hsort : (z :: rest').Pairwise fun a b => chd_le bs a b = true)
    (hcnt : (z :: rest').countP (fun w => w.1 == z.1) = bs z.1) :
    (∀ a ∈ (z :: rest').take (bs z.1), a.1 = z.1) ∧
    (∀ a ∈ (z :: rest').drop (bs z.1), a.1 ≠ z.1) ∧
    ((z :: rest').take (bs z.1)).length = bs z.1 ∧
    (∀ d : Nat, d ≠ z.1 → ((z :: rest').drop (bs z.1)).countP (fun w => w.1 == d)
        = (z :: rest').countP (fun w => w.1 == d)) ∧
    ((z :: rest').drop (bs z.1)).countP (fun w => w.1 == z.1) = 0 := by
  rcases group_chunk hsort with ⟨htake, hdrop⟩
  rw [hcnt] at htake hdrop
  have hble : bs z.1 ≤ (z :: rest').length := by
    rw [← hcnt]
    exact List.countP_le_length _
  have hlen_take : ((z :: rest').take (bs z.1)).length = bs z.1 := by
    rw [List.length_take]
    omega
  have hsum : ∀ p : Nat × κ × ν → Bool,
      ((z :: rest').take (bs z.1)).countP p + ((z :: rest').drop (bs z.1)).countP p
        = (z :: rest').countP p := by
    intro p
    rw [← List.countP_append, List.take_append_drop]
  have htake_full : ((z :: rest').take (bs z.1)).countP (fun w => w.1 == z.1) = bs z.1 := by
    have hall : ∀ a ∈ (z :: rest').take (bs z.1), (fun w : Nat × κ × ν => w.1 == z.1) a = true := by
      intro a ha
      simpa using htake a ha
    rw [List.countP_eq_length.mpr hall]
    exact hlen_take
  refine ⟨htake, hdrop, hlen_take, ?_, ?_⟩
  · intro d hd
    have h0 : ((z :: rest').take (bs z.1)).countP (fun w => w.1 == d) = 0 := by
      rw [List.countP_eq_zero]
      intro a ha
      have := htake a ha
      simp only [beq_iff_eq]
      rw [this]
      exact fun h => hd h.symm
    have := hsum fun w => w.1 == d
    omega
  · have := hsum fun w => w.1 == z.1
    omega

/-- Invariant preservation for a multi-member bucket whose seed search
succeeded. -/
theorem placeInv_seed_step {h1 : κ → Nat} {h2 : Nat → κ → Nat} {n : Nat} {bs : Nat → Nat}
    {done : List (Nat × κ × ν)}
    {entries : List (Option (κ × ν))} {displs : List Nat} {fe : Nat}
    {z : Nat × κ × ν} {rest' : List (Nat × κ × ν)} {seed : Nat}
    {assignments : List Nat}
    (hn : 0 < n) (hn32 : n ≤ 2147483648)
    (inv : PlaceInv h1 h2 n bs (z :: rest') done entries displs fe)
    (hb : 1 < bs z.1)
    (hfs : findSeed h2 n entries ((z :: rest').take (bs z.1)) 2147483648 2147483648
      = some (seed, assignments)) :
    PlaceInv h1 h2 n bs ((z :: rest').drop (bs z.1))
      (done ++ (z :: rest').take (bs z.1))
      (placeAll entries assignments ((z :: rest').take (bs z.1)))
      (displs.set z.1 seed) fe := by
  have hzn : z.1 < n := by
    rw [inv.rest_valid z (List.mem_cons_self z rest')]
    exact Nat.mod_lt _ hn
  have hcnt : (z :: rest').countP (fun w => w.1 == z.1) = bs z.1 := by
    rcases inv.counts z.1 with h | h
    · exact h
    · rw [List.countP_cons] at h
      simp at h
  rcases bucket_split inv.sorted hcnt with ⟨htake, hdrop, hlen_take, hcd, hcz⟩
  rcases findSeed_eq_some hfs with ⟨hs1, hs2, htry, _⟩
  rcases trySeed_eq_some htry with ⟨hassign, hnodup, hempty⟩
  have hnodup' : assignments.Nodup := hnodup List.nodup_nil
  rw [List.nil_append] at hassign
  have hmem_assign : ∀ i ∈ assignments,
      i < n ∧ entries[i]? = some none := by
    intro i hi
    rw [hassign, List.mem_map] at hi
    rcases hi with ⟨w, hw, rfl⟩
    have hin : h2 seed w.2.1 % n < n := Nat.mod_lt _ hn
    exact ⟨hin, getElem?_of_getD_none (by rw [inv.entries_len]; exact hin)
      (hempty w hw)⟩
  have hlen_assign : assignments.length = ((z :: rest').take (bs z.1)).length := by
    rw [hassign, List.length_map]
  have hocc := occupied_placeAll hnodup'
    (fun i hi => (hmem_assign i hi).2) hlen_assign
  have hclosed_ne : ∀ e : κ × ν, ∀ i : Nat, entries[i]? = some (some e) →
      h1 e.1 % n ≠ z.1 := by
    intro e i he heq
    have := inv.slot_closed i e he
    rw [heq] at this
    omega
  refine ⟨?_, ?_, ?_, ?_, ?_, ?_, ?_, ?_, ?_, ?_, ?_, ?_, ?_⟩
  · rw [placeAll_length, inv.entries_len]
  · rw [List.length_set, inv.displs_len]
  · exact List.Pairwise.sublist (List.drop_sublist _ _) inv.sorted
  · intro w hw
    exact inv.rest_valid w (List.mem_of_mem_drop hw)
  · intro d
    rcases Decidable.em (d = z.1) with rfl | hd
    · right
      exact hcz
    · rw [hcd d hd]
      exact inv.counts d
  · intro w hw
    have hne : w.1 ≠ z.1 := hdrop w hw
    rw [List.getElem?_set_ne (fun h => hne h.symm)]
    exact inv.rest_sentinel w (List.mem_of_mem_drop hw)
  · intro i e he
    rcases Decidable.em (i ∈ assignments) with hi | hi
    · rcases List.mem_iff_getElem?.mp hi with ⟨j, hj⟩
      have hjlt : j < assignments.length := by
        rcases List.getElem?_eq_some.mp hj with ⟨h', _⟩
        exact h'
      have hjb : j < ((z :: rest').take (bs z.1)).length := by
        rw [← hlen_assign]
        exact hjlt
      have hw : ((z :: rest').take (bs z.1))[j]? =
          some ((z :: rest').take (bs z.1))[j] := List.getElem?_eq_getElem hjb
      have hset := placeAll_getElem_mem hnodup' hj hw
        (by rw [inv.entries_len]; exact (hmem_assign i hi).1)
      rw [he] at hset
      have he2 : e = ((z :: rest').take (bs z.1))[j].2 := by
        have := Option.some.inj hset
        exact Option.some.inj this
      have hwmem : ((z :: rest').take (bs z.1))[j] ∈ (z :: rest').take (bs z.1) :=
        List.getElem_mem hjb
      have hwd : ((z :: rest').take (bs z.1))[j].1 = z.1 := htake _ hwmem
      have hwvalid : ((z :: rest').take (bs z.1))[j].1 =
          h1 ((z :: rest').take (bs z.1))[j].2.1 % n :=
        inv.rest_valid _ (List.mem_of_mem_take hwmem)
      have hi_eq : assignments[j]? = some (h2 seed ((z :: rest').take (bs z.1))[j].2.1 % n) := by
        rw [hassign, List.getElem?_map, hw]
        rfl
      have hii : i = h2 seed ((z :: rest').take (bs z.1))[j].2.1 % n := by
        rw [hj] at hi_eq
        exact Option.some.inj hi_eq
      refine ⟨seed, ?_, Or.inr ⟨by omega, by omega, ?_⟩⟩
      · rw [he2, ← hwvalid, hwd]
        exact List.getElem?_set_self (by rw [inv.displs_len]; exact hzn)
      · rw [he2]
        exact hii.symm
    · rw [placeAll_getElem_notMem hi] at he
      rcases inv.slot_good i e he with ⟨D, hD, hcase⟩
      refine ⟨D, ?_, hcase⟩
      rw [List.getElem?_set_ne (fun h => hclosed_ne e i he h.symm)]
      exact hD
  · intro i e he
    rcases Decidable.em (i ∈ assignments) with hi | hi
    · rcases List.mem_iff_getElem?.mp hi with ⟨j, hj⟩
      have hjlt : j < assignments.length := by
        rcases List.getElem?_eq_some.mp hj with ⟨h', _⟩
        exact h'
      have hjb : j < ((z :: rest').take (bs z.1)).length := by
        rw [← hlen_assign]
        exact hjlt
      have hw : ((z :: rest').take (bs z.1))[j]? =
          some ((z :: rest').take (bs z.1))[j] := List.getElem?_eq_getElem hjb
      have hset := placeAll_getElem_mem hnodup' hj hw
        (by rw [inv.entries_len]; exact (hmem_assign i hi).1)
      rw [he] at hset
      have he2 : e = ((z :: rest').take (bs z.1))[j].2 := by
        have := Option.some.inj hset
        exact Option.some.inj this
      have hwmem : ((z :: rest').take (bs z.1))[j] ∈ (z :: rest').take (bs z.1) :=
        List.getElem_mem hjb
      have hwd : ((z :: rest').take (bs z.1))[j].1 = z.1 := htake _ hwmem
      have hwvalid : ((z :: rest').take (bs z.1))[j].1 =
          h1 ((z :: rest').take (bs z.1))[j].2.1 % n :=
        inv.rest_valid _ (List.mem_of_mem_take hwmem)
      rw [he2, ← hwvalid, hwd]
      exact hcz
    · rw [placeAll_getElem_notMem hi] at he
      have h0 := inv.slot_closed i e he
      have hsum : ((z :: rest').take (bs z.1)).countP (fun w => w.1 == h1 e.1 % n)
          + ((z :: rest').drop (bs z.1)).countP (fun w => w.1 == h1 e.1 % n)
          = (z :: rest').countP (fun w => w.1 == h1 e.1 % n) := by
        rw [← List.countP_append, List.take_append_drop]
      omega
  · have hocc' : (occupied (placeAll entries assignments ((z :: rest').take (bs z.1)))
        : Multiset (κ × ν))
        = ↑(((z :: rest').take (bs z.1)).map fun w => w.2) + ↑(occupied entries) := by
      rw [Multiset.coe_add, Multiset.coe_eq_coe]
      exact hocc
    rw [hocc', List.map_append, ← Multiset.coe_add]
    rw [add_comm]
    exact add_le_add_right inv.occ_sub _
  · intro j D hj
    rcases Decidable.em (j = z.1) with rfl | hne
    · rw [List.getElem?_set_self (by rw [inv.displs_len]; exact hzn)] at hj
      obtain rfl : seed = D := Option.some.inj hj
      right
      right
      omega
    · rw [List.getElem?_set_ne (fun h => hne h.symm)] at hj
      exact inv.displ_range j D hj
  · intro j hjn hbs0
    have hne : j ≠ z.1 := by
      intro h
      rw [h] at hbs0
      omega
    rw [List.getElem?_set_ne (fun h => hne h.symm)]
    exact inv.empty_sent j hjn hbs0
  · intro j hj
    rcases inv.low_full j hj with ⟨e, he⟩
    have hnotin : j ∉ assignments := by
      intro hjin
      rcases hmem_assign j hjin with ⟨_, hnone⟩
      rw [he] at hnone
      simp at hnone
    rw [placeAll_getElem_notMem hnotin]
    exact ⟨e, he⟩
  · have hocc_len : (occupied (placeAll entries assignments
        ((z :: rest').take (bs z.1)))).length
        = bs z.1 + (occupied entries).length := by
      rw [hocc.length_eq, List.length_append, List.length_map, hlen_take]
    have hdone_len : (done ++ (z :: rest').take (bs z.1)).length
        = done.length + bs z.1 := by
      rw [List.length_append, hlen_take]
    rcases inv.seeded with ⟨hA, hlen⟩ | hlt
    · left
      constructor
      · intro d hdn hbs0 hc0
        rcases Decidable.em (d = z.1) with rfl | hne
        · refine ⟨seed, ?_, Or.inl ⟨hb, by omega, by omega⟩⟩
          exact List.getElem?_set_self (by rw [inv.displs_len]; exact hzn)
        · rw [hcd d hne] at hc0
          rcases hA d hdn hbs0 hc0 with ⟨D, hD, hcase⟩
          refine ⟨D, ?_, hcase⟩
          rw [List.getElem?_set_ne (fun h => hne h.symm)]
          exact hD
      · omega
    · right
      omega

/-- Invariant preservation for a multi-member bucket whose seed search
failed: the source silently skips the bucket, leaving its members
unplaced and its displacement at the sentinel. -/
theorem placeInv_exhaust_step {h1 : κ → Nat} {h2 : Nat → κ → Nat} {n : Nat} {bs : Nat → Nat}
    {done : List (Nat × κ × ν)}
    {entries : List (Option (κ × ν))} {displs : List Nat} {fe : Nat}
    {z : Nat × κ × ν} {rest' : List (Nat × κ × ν)}
    (hn : 0 < n)
    (inv : PlaceInv h1 h2 n bs (z :: rest') done entries displs fe)
    (hb : 1 < bs z.1) :
    PlaceInv h1 h2 n bs ((z :: rest').drop (bs z.1))
      (done ++ (z :: rest').take (bs z.1)) entries displs fe := by
  have hcnt : (z :: rest').countP (fun w => w.1 == z.1) = bs z.1 := by
    rcases inv.counts z.1 with h | h
    · exact h
    · rw [List.countP_cons] at h
      simp at h
  rcases bucket_split inv.sorted hcnt with ⟨htake, hdrop, hlen_take, hcd, hcz⟩
  refine ⟨inv.entries_len, inv.displs_len, ?_, ?_, ?_, ?_, inv.slot_good, ?_, ?_,
    inv.displ_range, inv.empty_sent, inv.low_full, ?_⟩
  · exact List.Pairwise.sublist (List.drop_sublist _ _) inv.sorted
  · intro w hw
    exact inv.rest_valid w (List.mem_of_mem_drop hw)
  · intro d
    rcases Decidable.em (d = z.1) with rfl | hd
    · right
      exact hcz
    · rw [hcd d hd]
      exact inv.counts d
  · intro w hw
    exact inv.rest_sentinel w (List.mem_of_mem_drop hw)
  · intro i e he
    have h0 := inv.slot_closed i e he
    have hsum : ((z :: rest').take (bs z.1)).countP (fun w => w.1 == h1 e.1 % n)
        + ((z :: rest').drop (bs z.1)).countP (fun w => w.1 == h1 e.1 % n)
        = (z :: rest').countP (fun w => w.1 == h1 e.1 % n) := by
      rw [← List.countP_append, List.take_append_drop]
    omega
  · refine le_trans inv.occ_sub ?_
    rw [List.map_append, ← Multiset.coe_add]
    exact Multiset.le_add_right _ _
  · right
    have hdone_len : (done ++ (z :: rest').take (bs z.1)).length
        = done.length + bs z.1 := by
      rw [List.length_append, hlen_take]
    rcases inv.seeded with ⟨_, hlen⟩ | hlt
    · omega
    · omega

/-- Invariant preservation for a singleton bucket: its member goes to
the lowest empty slot at or after first_empty, whose index becomes the
bucket's displacement. -/
theorem placeInv_single_step {h1 : κ → Nat} {h2 : Nat → κ → Nat} {n : Nat} {bs : Nat → Nat}
    {done : List (Nat × κ × ν)}
    {entries : List (Option (κ × ν))} {displs : List Nat} {fe : Nat}
    {z : Nat × κ × ν} {rest' : List (Nat × κ × ν)} {offset : Nat}
    (hn : 0 < n) (hn32 : n ≤ 2147483648)
    (inv : PlaceInv h1 h2 n bs (z :: rest') done entries displs fe)
    (hb : bs z.1 = 1)
    (hfind : (entries.drop fe).findIdx? (fun e => e.isNone) = some offset) :
    PlaceInv h1 h2 n bs rest' (done ++ [z])
      (entries.set (fe + offset) (some z.2))
      (displs.set z.1 ((fe + offset) % 4294967296)) (fe + offset + 1) := by
  have hzn : z.1 < n := by
    rw [inv.rest_valid z (List.mem_cons_self z rest')]
    exact Nat.mod_lt _ hn
  have hcnt0 : rest'.countP (fun w => w.1 == z.1) = 0 := by
    rcases inv.counts z.1 with h | h
    all_goals
      rw [List.countP_cons] at h
      simp only [beq_self_eq_true, if_pos] at h
      omega
  rcases List.findIdx?_eq_some_iff_getElem.mp hfind with ⟨hofflt, hnone, hmin⟩
  have hfen : fe + offset < entries.length := by
    rw [List.length_drop] at hofflt
    omega
  have hfen' : fe + offset < n := by
    rw [← inv.entries_len]
    exact hfen
  have hslot : entries[fe + offset]? = some none := by
    rw [List.getElem?_eq_getElem hfen]
    have hd := List.getElem_drop entries
      (i := fe) (j := offset) (h := hofflt)
    rw [hd] at hnone
    rw [Option.isNone_iff_eq_none] at hnone
    rw [hnone]
  have hmod : (fe + offset) % 4294967296 = fe + offset :=
    Nat.mod_eq_of_lt (by omega)
  have hclosed_ne : ∀ e : κ × ν, ∀ i : Nat, entries[i]? = some (some e) →
      h1 e.1 % n ≠ z.1 := by
    intro e i he heq
    have h0 := inv.slot_closed i e he
    rw [heq, List.countP_cons] at h0
    simp only [beq_self_eq_true, if_pos] at h0
    omega
  have hzvalid : z.1 = h1 z.2.1 % n :=
    inv.rest_valid z (List.mem_cons_self z rest')
  refine ⟨?_, ?_, ?_, ?_, ?_, ?_, ?_, ?_, ?_, ?_, ?_, ?_, ?_⟩
  · rw [List.length_set, inv.entries_len]
  · rw [List.length_set, inv.displs_len]
  · exact inv.sorted.of_cons
  · intro w hw
    exact inv.rest_valid w (List.mem_cons_of_mem z hw)
  · intro d
    rcases Decidable.em (d = z.1) with rfl | hd
    · right
      exact hcnt0
    · have : (z :: rest').countP (fun w => w.1 == d) = rest'.countP (fun w => w.1 == d) := by
        rw [List.countP_cons]
        simp only [beq_iff_eq]
        rw [if_neg (fun h => hd h.symm)]
        omega
      rw [← this]
      exact inv.counts d
  · intro w hw
    have hne : w.1 ≠ z.1 := by
      intro h
      have : rest'.countP (fun w => w.1 == z.1) ≠ 0 := by
        have : 0 < rest'.countP (fun w => w.1 == z.1) := by
          refine List.countP_pos.mpr ⟨w, hw, by simp [h]⟩
        omega
      exact this hcnt0
    rw [List.getElem?_set_ne (fun h => hne h.symm)]
    exact inv.rest_sentinel w (List.mem_cons_of_mem z hw)
  · intro i e he
    rcases Decidable.em (i = fe + offset) with rfl | hi
    · rw [List.getElem?_set_self hfen] at he
      obtain rfl : z.2 = e := by
        have := Option.some.inj he
        exact Option.some.inj this
      refine ⟨fe + offset, ?_, Or.inl ⟨rfl, by omega⟩⟩
      rw [← hzvalid, hmod]
      exact List.getElem?_set_self (by rw [inv.displs_len]; exact hzn)
    · rw [List.getElem?_set_ne (fun h => hi h.symm)] at he
      rcases inv.slot_good i e he with ⟨D, hD, hcase⟩
      refine ⟨D, ?_, hcase⟩
      rw [List.getElem?_set_ne (fun h => hclosed_ne e i he h.symm)]
      exact hD
  · intro i e he
    rcases Decidable.em (i = fe + offset) with rfl | hi
    · rw [List.getElem?_set_self hfen] at he
      obtain rfl : z.2 = e := by
        have := Option.some.inj he
        exact Option.some.inj this
      rw [← hzvalid]
      exact hcnt0
    · rw [List.getElem?_set_ne (fun h => hi h.symm)] at he
      have h0 := inv.slot_closed i e he
      rw [List.countP_cons] at h0
      omega
  · have hocc := occupied_set_of_none (i := fe + offset) (p := z.2) hslot
    have hcoe : (occupied (entries.set (fe + offset) (some z.2)) : Multiset (κ × ν))
        = ↑([z.2] ++ occupied entries) := by
      rw [Multiset.coe_eq_coe]
      exact hocc
    rw [hcoe, ← Multiset.coe_add, List.map_append, ← Multiset.coe_add]
    have hstep : (↑[z.2] + ↑(occupied entries) : Multiset (κ × ν))
        ≤ ↑[z.2] + ↑(done.map fun z => z.2) := add_le_add_left inv.occ_sub _
    refine le_trans hstep ?_
    rw [add_comm]
    exact le_refl _
  · intro j D hj
    rcases Decidable.em (j = z.1) with rfl | hne
    · rw [List.getElem?_set_self (by rw [inv.displs_len]; exact hzn)] at hj
      obtain rfl : (fe + offset) % 4294967296 = D := Option.some.inj hj
      right
      left
      omega
    · rw [List.getElem?_set_ne (fun h => hne h.symm)] at hj
      exact inv.displ_range j D hj
  · intro j hjn hbs0
    have hne : j ≠ z.1 := by
      intro h
      rw [h, hb] at hbs0
      omega
    rw [List.getElem?_set_ne (fun h => hne h.symm)]
    exact inv.empty_sent j hjn hbs0
  · intro j hj
    rcases Decidable.em (j = fe + offset) with rfl | hne
    · refine ⟨z.2, ?_⟩
      exact List.getElem?_set_self hfen
    · rw [List.getElem?_set_ne (fun h => hne h.symm)]
      rcases Nat.lt_or_ge j fe with hjf | hjf
      · exact inv.low_full j hjf
      · have hjoff : j - fe < offset := by omega
        have hjlt : j - fe < (entries.drop fe).length := by
          rw [List.length_drop]
          omega
        have hne' := hmin (j - fe) hjoff
        have heq : fe + (j - fe) = j := by omega
        rcases hev : (entries.drop fe)[j - fe] with _ | e
        · rw [hev] at hne'
          simp at hne'
        · refine ⟨e, ?_⟩
          have hq : (entries.drop fe)[j - fe]? = some (some e) := by
            rw [List.getElem?_eq_getElem hjlt, hev]
          rw [List.getElem?_drop, heq] at hq
          exact hq
  · have hocc := occupied_set_of_none (i := fe + offset) (p := z.2) hslot
    have hlen' : (occupied (entries.set (fe + offset) (some z.2))).length
        = (occupied entries).length + 1 := by
      rw [hocc.length_eq]
      simp
    rcases inv.seeded with ⟨hA, hlen⟩ | hlt
    · left
      constructor
      · intro d hdn hbs0 hc0
        rcases Decidable.em (d = z.1) with rfl | hne
        · refine ⟨(fe + offset) % 4294967296, ?_, Or.inr ⟨hb, by omega⟩⟩
          exact List.getElem?_set_self (by rw [inv.displs_len]; exact hzn)
        · have hc0' : (z :: rest').countP (fun w => w.1 == d) = 0 := by
            rw [List.countP_cons]
            simp only [beq_iff_eq]
            rw [if_neg (fun h => hne h.symm)]
            omega
          rcases hA d hdn hbs0 hc0' with ⟨D, hD, hcase⟩
          refine ⟨D, ?_, hcase⟩
          rw [List.getElem?_set_ne (fun h => hne h.symm)]
          exact hD
      · rw [hlen', List.length_append, List.length_singleton]
        omega
    · right
      rw [hlen', List.length_append, List.length_singleton]
      omega

/-- Invariant propagation through the whole placement loop: if the loop
returns, the final state satisfies the invariant with everything
processed. -/
theorem placeBuckets_inv {h1 : κ → Nat} {h2 : Nat → κ → Nat} {n : Nat} {bs : Nat → Nat} :
    ∀ (fuel : Nat) (rest done : List (Nat × κ × ν)) (entries : List (Option (κ × ν)))
      (displs : List Nat) (fe : Nat)
      (entriesF : List (Option (κ × ν))) (displsF : List Nat),
      0 < n → n ≤ 2147483648 →
      PlaceInv h1 h2 n bs rest done entries displs fe →
      placeBuckets h2 n bs fuel rest entries displs fe = some (entriesF, displsF) →
      ∃ feF, PlaceInv h1 h2 n bs [] (done ++ rest) entriesF displsF feF := by
  intro fuel
  induction fuel with
  | zero =>
    intro rest done entries displs fe entriesF displsF hn hn32 inv hrun
    cases rest with
    | nil =>
      rw [placeBuckets] at hrun
      have h' := Option.some.inj hrun
      obtain rfl : entries = entriesF := congrArg Prod.fst h'
      obtain rfl : displs = displsF := congrArg Prod.snd h'
      refine ⟨fe, ?_⟩
      rw [List.append_nil]
      exact inv
    | cons z rest' =>
      rw [placeBuckets] at hrun
      exact absurd hrun (by simp)
  | succ fuel ih =>
    intro rest done entries displs fe entriesF displsF hn hn32 inv hrun
    cases rest with
    | nil =>
      rw [placeBuckets] at hrun
      have h' := Option.some.inj hrun
      obtain rfl : entries = entriesF := congrArg Prod.fst h'
      obtain rfl : displs = displsF := congrArg Prod.snd h'
      refine ⟨fe, ?_⟩
      rw [List.append_nil]
      exact inv
    | cons z rest' =>
      rw [placeBuckets] at hrun
      by_cases hb : 1 < bs z.1
      · rw [if_pos hb] at hrun
        cases hfs : findSeed h2 n entries ((z :: rest').take (bs z.1)) 2147483648 2147483648 with
        | some sa =>
          rcases sa with ⟨seed, assignments⟩
          rw [hfs] at hrun
          have inv' := placeInv_seed_step hn hn32 inv hb hfs
          rcases ih _ _ _ _ _ _ _ hn hn32 inv' hrun with ⟨feF, invF⟩
          refine ⟨feF, ?_⟩
          rw [List.append_assoc, List.take_append_drop] at invF
          exact invF
        | none =>
          rw [hfs] at hrun
          have inv' := placeInv_exhaust_step hn inv hb
          rcases ih _ _ _ _ _ _ _ hn hn32 inv' hrun with ⟨feF, invF⟩
          refine ⟨feF, ?_⟩
          rw [List.append_assoc, List.take_append_drop] at invF
          exact invF
      · rw [if_neg hb] at hrun
        have hb1 : bs z.1 = 1 := by
          rcases inv.counts z.1 with h | h
          · have : 0 < (z :: rest').countP fun w => w.1 == z.1 :=
              List.countP_pos.mpr ⟨z, List.mem_cons_self z rest', by simp⟩
            omega
          · rw [List.countP_cons] at h
            simp at h
        rw [if_neg (by omega)] at hrun
        cases hfind : (entries.drop fe).findIdx? (fun e => e.isNone) with
        | none =>
          rw [hfind] at hrun
          exact absurd hrun (by simp)
        | some offset =>
          rw [hfind] at hrun
          have inv' := placeInv_single_step hn hn32 inv hb1 hfind
          rcases ih _ _ _ _ _ _ _ hn hn32 inv' hrun with ⟨feF, invF⟩
          refine ⟨feF, ?_⟩
          rw [List.append_assoc, List.singleton_append] at invF
          exact invF

end InvariantLemmas

section Extraction

variable {h1 : κ → Nat} {h2 : Nat → κ → Nat} {n : Nat}

/-- Everything the successful construction guarantees about the archive
content: sizes, that the entries block is a permutation of the input,
that every stored entry is reachable by the lookup dispatch, and the
displacement encoding per bucket size. -/
theorem serialize_from_iter_spec {pairs : List (κ × ν)}
    {ds : List Nat} {es : List (κ × ν)}
    (hn : 0 < n) (hn32 : n ≤ 2147483648) (hlen : pairs.length = n)
    (hrun : serialize_from_iter h1 h2 pairs n = some (ds, es)) :
    es.length = n ∧ ds.length = n ∧
    List.Perm es pairs ∧
    (∀ i : Nat, ∀ e : κ × ν, es[i]? = some e → slotGood h1 h2 n ds i e.1) ∧
    (∀ j D : Nat, ds[j]? = some D →
      D = 4294967295 ∨ D < n ∨ (2147483648 ≤ D ∧ D < 4294967296)) ∧
    (∀ d : Nat, d < n →
      (bucket_size (displacesOf h1 n pairs) d = 0 → ds[d]? = some 4294967295) ∧
      (bucket_size (displacesOf h1 n pairs) d ≠ 0 →
        ∃ D, ds[d]? = some D ∧
          ((1 < bucket_size (displacesOf h1 n pairs) d ∧
              2147483648 ≤ D ∧ D < 4294967296) ∨
            (bucket_size (displacesOf h1 n pairs) d = 1 ∧ D < n)))) := by
  rw [serialize_from_iter] at hrun
  rw [if_neg (by omega)] at hrun
  rcases hpb : placeBuckets h2 n (bucket_size (displacesOf h1 n pairs)) pairs.length
      (sortByKey (chd_le (bucket_size (displacesOf h1 n pairs)))
        (displacesOf h1 n pairs))
      (List.replicate n none) (List.replicate n 4294967295) 0 with _ | ep
  · rw [hpb] at hrun
    exact absurd hrun (by simp)
  · rw [hpb] at hrun
    rcases ep with ⟨entriesF, displsF⟩
    simp only at hrun
    rcases hue : unwrapEntries entriesF with _ | es'
    · rw [hue] at hrun
      exact absurd hrun (by simp)
    · rw [hue] at hrun
      have h' := Option.some.inj hrun
      obtain rfl : ds = displsF := (congrArg Prod.fst h').symm
      obtain rfl : es = es' := (congrArg Prod.snd h').symm
      have hinit := @placeInv_init κ ν _ h1 h2 n
        (bucket_size (displacesOf h1 n pairs)) pairs hn hn32 hlen rfl
      rcases placeBuckets_inv _ _ _ _ _ _ _ _ hn hn32 hinit hpb with ⟨feF, invF⟩
      rw [List.nil_append] at invF
      have hmap : entriesF = es.map some := unwrapEntries_eq_some.mp hue
      have hocc_es : occupied entriesF = es := by
        rw [hmap, occupied, List.filterMap_map]
        have : (id ∘ some : κ × ν → Option (κ × ν)) = some := rfl
        rw [this, List.filterMap_some]
      have hes_len : es.length = n := by
        have := invF.entries_len
        rw [hmap, List.length_map] at this
        exact this
      have hsorted_len :
          (sortByKey (chd_le (bucket_size (displacesOf h1 n pairs)))
            (displacesOf h1 n pairs)).length = n := by
        rw [(sortByKey_perm _ _).length_eq, displacesOf, List.length_map, hlen]
      have hperm : List.Perm es pairs := by
        have hle := invF.occ_sub
        rw [hocc_es] at hle
        have hcard : Multiset.card
            (((sortByKey (chd_le (bucket_size (displacesOf h1 n pairs)))
              (displacesOf h1 n pairs)).map fun z => z.2 : List (κ × ν))
              : Multiset (κ × ν))
            ≤ Multiset.card ((es : List (κ × ν)) : Multiset (κ × ν)) := by
          rw [Multiset.coe_card, Multiset.coe_card, List.length_map, hsorted_len, hes_len]
        have heq := Multiset.eq_of_le_of_card_le hle hcard
        have hperm1 : List.Perm es
            ((sortByKey (chd_le (bucket_size (displacesOf h1 n pairs)))
              (displacesOf h1 n pairs)).map fun z => z.2) :=
          Multiset.coe_eq_coe.mp heq
        refine hperm1.trans ?_
        refine ((sortByKey_perm _ _).map _).trans ?_
        rw [displacesOf, List.map_map]
        have : ((fun z : Nat × κ × ν => z.2) ∘ fun kv : κ × ν =>
            ((h1 kv.1 % n) % 4294967296, kv)) = id := rfl
        rw [this, List.map_id]
      refine ⟨hes_len, invF.displs_len, hperm, ?_, invF.displ_range, ?_⟩
      · intro i e hei
        have : entriesF[i]? = some (some e) := by
          rw [hmap, List.getElem?_map, hei]
          rfl
        exact invF.slot_good i e this
      · intro d hdn
        have hA := invF.seeded
        rcases hA with ⟨hA, _⟩ | hlt
        · refine ⟨fun h0 => invF.empty_sent d hdn h0, fun hne => ?_⟩
          exact hA d hdn hne (by simp)
        · exfalso
          rw [hocc_es, hes_len] at hlt
          have : (sortByKey (chd_le (bucket_size (displacesOf h1 n pairs)))
              (displacesOf h1 n pairs)).length = n := hsorted_len
          omega

theorem mk_len (m : Nat) (ds : List Nat) (es : List (κ × ν)) :
    (ArchivedHashMap.mk m ds es).len = m := rfl

theorem mk_displace (m : Nat) (ds : List Nat) (es : List (κ × ν)) :
    (ArchivedHashMap.mk m ds es).displace = ds := rfl

theorem mk_entries (m : Nat) (ds : List Nat) (es : List (κ × ν)) :
    (ArchivedHashMap.mk m ds es).entries = es := rfl

theorem testBit31_false {D : Nat} (h : D < 2147483648) : D.testBit 31 = false := by
  rw [Nat.testBit_to_div_mod]
  have hp : (2 : Nat) ^ 31 = 2147483648 := by norm_num
  rw [hp]
  have : D / 2147483648 = 0 := Nat.div_eq_of_lt h
  simp [this]

theorem testBit31_true {D : Nat} (hlo : 2147483648 ≤ D) (hhi : D < 4294967296) :
    D.testBit 31 = true := by
  rw [Nat.testBit_to_div_mod]
  have hp : (2 : Nat) ^ 31 = 2147483648 := by norm_num
  rw [hp]
  have : D / 2147483648 = 1 := by omega
  simp [this]

/-- The lookup finds slot i whenever the dispatch invariant holds for
the stored key and the bucket's displacement is not the sentinel. -/
theorem index_found {ds : List Nat} {es : List (κ × ν)} {i : Nat} {e : κ × ν}
    (hn : 0 < n) (hes : es.length = n)
    (hsg : slotGood h1 h2 n ds i e.1)
    (hei : es[i]? = some e)
    (hns : ds[h1 e.1 % n]? ≠ some 4294967295) :
    index h1 h2 (ArchivedHashMap.mk n ds es) e.1 = some (some i) := by
  rcases hsg with ⟨D, hD, hcase⟩
  have hne : D ≠ 4294967295 := by
    intro h
    refine hns ?_
    rw [← h]
    exact hD
  rw [index]
  simp only [mk_len, mk_displace, mk_entries]
  rw [if_neg (by omega), hD]
  simp only
  rw [if_neg hne]
  rcases hcase with ⟨rfl, hlt⟩ | ⟨hlo, hhi, hslot⟩
  · rw [testBit31_false hlt]
    simp only [Bool.false_eq_true, if_false]
    rw [hei]
    simp
  · rw [testBit31_true hlo hhi]
    simp only [if_true]
    rw [hslot, hei]
    simp

/-- The lookup reports absence for every key different from all stored
keys, on any archive whose displacements respect the encoding ranges. -/
theorem index_absent {ds : List Nat} {es : List (κ × ν)} {k : κ}
    (hn : 0 < n) (hn32 : n ≤ 2147483648)
    (hds_len : ds.length = n) (hes_len : es.length = n)
    (hrange : ∀ j D : Nat, ds[j]? = some D →
      D = 4294967295 ∨ D < n ∨ (2147483648 ≤ D ∧ D < 4294967296))
    (hkeys : ∀ e ∈ es, e.1 ≠ k) :
    index h1 h2 (ArchivedHashMap.mk n ds es) k = some none := by
  rw [index]
  simp only [mk_len, mk_displace, mk_entries]
  rw [if_neg (by omega)]
  have hdix : h1 k % n < ds.length := by
    rw [hds_len]
    exact Nat.mod_lt _ hn
  rw [List.getElem?_eq_getElem hdix]
  simp only
  by_cases hsent : ds[h1 k % n] = 4294967295
  · rw [if_pos hsent]
  · rw [if_neg hsent]
    rcases hrange (h1 k % n) (ds[h1 k % n])
        (List.getElem?_eq_getElem hdix) with h | h | ⟨hlo, hhi⟩
    · exact absurd h hsent
    · rw [testBit31_false (by omega)]
      simp only [Bool.false_eq_true, if_false]
      have hin : ds[h1 k % n] < es.length := by omega
      rw [List.getElem?_eq_getElem hin]
      simp only
      rw [if_neg (hkeys _ (List.getElem_mem hin))]
    · rw [testBit31_true hlo hhi]
      simp only [if_true]
      have hin : h2 (ds[h1 k % n]) k % n < es.length := by
        rw [hes_len]
        exact Nat.mod_lt _ hn
      rw [List.getElem?_eq_getElem hin]
      simp only
      rw [if_neg (hkeys _ (List.getElem_mem hin))]

theorem get_of_index_found {ds : List Nat} {es : List (κ × ν)} {k : κ} {i : Nat}
    {e : κ × ν}
    (hidx : index h1 h2 (ArchivedHashMap.mk n ds es) k = some (some i))
    (hei : es[i]? = some e) :
    get h1 h2 (ArchivedHashMap.mk n ds es) k = some (some e.2) := by
  rw [get, hidx]
  simp only [mk_entries, hei]

theorem get_of_index_absent {m : ArchivedHashMap κ ν} {k : κ}
    (hidx : index h1 h2 m k = some none) :
    get h1 h2 m k = some none := by
  rw [get, hidx]

/-- If the lookup reports slot i, then slot i holds an entry whose key
equals the probe key. -/
theorem index_some_inv {m : ArchivedHashMap κ ν} {k : κ} {i : Nat}
    (h : index h1 h2 m k = some (some i)) :
    ∃ e : κ × ν, m.entries[i]? = some e ∧ e.1 = k := by
  rw [index] at h
  split at h
  · exact absurd h (by simp)
  · split at h
    · exact absurd h (by simp)
    · split at h
      · exact absurd h (by simp)
      · simp only at h
        split at h
        · exact absurd h (by simp)
        · rename_i e he
          split at h
          · rename_i hk
            have hi := Option.some.inj (Option.some.inj h)
            rw [hi] at he
            exact ⟨e, he, hk⟩
          · exact absurd h (by simp)

theorem findSeed_eq_none {h2 : Nat → κ → Nat} {len : Nat}
    {entries : List (Option (κ × ν))} {bucket : List (Nat × κ × ν)}
    (h : ∀ t : Nat, trySeed h2 len entries t bucket [] = none) :
    ∀ fuel seed0 : Nat, findSeed h2 len entries bucket seed0 fuel = none := by
  intro fuel
  induction fuel with
  | zero =>
    intro seed0
    rw [findSeed]
  | succ fuel ih =>
    intro seed0
    rw [findSeed, h seed0]
    exact ih (seed0 + 1)

end Extraction

section Claims

/-- C2: the claim says lookup is total and that on the empty map get of
any key returns an absence indication.  The code instead computes
hasher.finish() % len with len = 0, a remainder by zero, which panics in
Rust; the model returns the panic outcome none (not the absence
indication some none) for index, get, get_key_value and contains_key on
the empty archive. -/
theorem lookup_empty_map_panics (h1 : κ → Nat) (h2 : Nat → κ → Nat) (k : κ) :
    index h1 h2 (ArchivedHashMap.mk 0 [] ([] : List (κ × ν))) k = none ∧
    get h1 h2 (ArchivedHashMap.mk 0 [] ([] : List (κ × ν))) k = none ∧
    get_key_value h1 h2 (ArchivedHashMap.mk 0 [] ([] : List (κ × ν))) k = none ∧
    contains_key h1 h2 (ArchivedHashMap.mk 0 [] ([] : List (κ × ν))) k = none :=
  ⟨rfl, rfl, rfl, rfl⟩

/-- C1 counterexample: the claim includes n = 0.  Construction from zero
pairs succeeds, but get of a probe key on the resulting empty archive
panics (none in the model) instead of returning the absence indication
some none, because the lookup computes a remainder by len = 0. -/
theorem round_trip_counterexample :
    serialize_from_iter (fun k : Nat => k) (fun s k => s + k)
      ([] : List (Nat × Nat)) 0 = some ([], []) ∧
    ¬get (fun k : Nat => k) (fun s k => s + k)
      (ArchivedHashMap.mk 0 [] ([] : List (Nat × Nat))) 7 = some none :=
  ⟨rfl, by decide⟩

/-- C1 (amended): for 1 ≤ n < 2^31 unique-key pairs, when construction
succeeds and no inserted key's bucket displacement equals the sentinel
0xFFFFFFFF (which the seed range cannot exclude, since it contains
u32::MAX), every inserted pair is found by the lookup at the slot where
it was placed and get returns its value, while get of every key not
inserted returns the absence indication. -/
theorem round_trip_correct
    (h1 : κ → Nat) (h2 : Nat → κ → Nat) (pairs : List (κ × ν)) (n : Nat)
    (ds : List Nat) (es : List (κ × ν))
    (hn : 0 < n) (hn31 : n < 2147483648) (hlen : pairs.length = n)
    (hnodup : (pairs.map fun p => p.1).Nodup)
    (hrun : serialize_from_iter h1 h2 pairs n = some (ds, es))
    (hns : ∀ p ∈ pairs, ¬ds[h1 p.1 % n]? = some 4294967295) :
    (∀ p ∈ pairs, ∃ i : Nat,
      index h1 h2 (ArchivedHashMap.mk n ds es) p.1 = some (some i) ∧
      es[i]? = some p ∧
      get h1 h2 (ArchivedHashMap.mk n ds es) p.1 = some (some p.2)) ∧
    (∀ k : κ, k ∉ pairs.map (fun p => p.1) →
      get h1 h2 (ArchivedHashMap.mk n ds es) k = some none) := by
  rcases serialize_from_iter_spec hn (by omega) hlen hrun with
    ⟨hes_len, hds_len, hperm, hsg, hrange, _⟩
  constructor
  · intro p hp
    have hpes : p ∈ es := hperm.mem_iff.mpr hp
    rcases List.mem_iff_getElem?.mp hpes with ⟨i, hi⟩
    have hfound := index_found hn hes_len (hsg i p hi) hi (hns p hp)
    exact ⟨i, hfound, hi, get_of_index_found hfound hi⟩
  · intro k hk
    have hkeys : ∀ e ∈ es, e.1 ≠ k := by
      intro e he heq
      refine hk ?_
      rw [List.mem_map]
      exact ⟨e, hperm.mem_iff.mp he, heq⟩
    exact get_of_index_absent
      (index_absent hn (by omega) hds_len hes_len hrange hkeys)

/-- Witness for the amended C1 on a concrete singleton construction. -/
theorem round_trip_correct_witness :
    get (fun k : Nat => k) (fun s k => s + k)
      (ArchivedHashMap.mk 1 [0] [((0 : Nat), (5 : Nat))]) 0 = some (some 5) ∧
    get (fun k : Nat => k) (fun s k => s + k)
      (ArchivedHashMap.mk 1 [0] [((0 : Nat), (5 : Nat))]) 3 = some none := by
  have h := round_trip_correct (fun k : Nat => k) (fun s k => s + k)
    [(0, 5)] 1 [0] [(0, 5)]
    (by decide) (by decide) (by decide) (by decide) (by decide) (by decide)
  rcases h.1 (0, 5) (by decide) with ⟨i, _, _, hg⟩
  exact ⟨hg, h.2 3 (by decide)⟩

/-- C9: iteration yields the entries block in storage order, exactly n
pairs, and the multiset of yielded pairs equals the input multiset. -/
theorem iteration_complete
    (h1 : κ → Nat) (h2 : Nat → κ → Nat) (pairs : List (κ × ν)) (n : Nat)
    (ds : List Nat) (es : List (κ × ν))
    (hn31 : n < 2147483648) (hlen : pairs.length = n)
    (hnodup : (pairs.map fun p => p.1).Nodup)
    (hrun : serialize_from_iter h1 h2 pairs n = some (ds, es)) :
    iter (ArchivedHashMap.mk n ds es) = es ∧ es.length = n ∧
      List.Perm es pairs := by
  rcases Nat.eq_zero_or_pos n with rfl | hn
  · obtain rfl : pairs = [] := List.eq_nil_of_length_eq_zero hlen
    have h0 : serialize_from_iter h1 h2 ([] : List (κ × ν)) 0 = some ([], []) := rfl
    rw [h0] at hrun
    have h' := Option.some.inj hrun
    obtain rfl : ([] : List Nat) = ds := congrArg Prod.fst h'
    obtain rfl : ([] : List (κ × ν)) = es := congrArg Prod.snd h'
    exact ⟨rfl, rfl, List.Perm.refl _⟩
  · rcases serialize_from_iter_spec hn (by omega) hlen hrun with
      ⟨hes_len, _, hperm, _, _, _⟩
    refine ⟨?_, hes_len, hperm⟩
    refine iter_eq_entries ?_
    rw [mk_len, mk_entries, hes_len]

/-- Witness for C9 on a concrete two-element construction. -/
theorem iteration_complete_witness :
    iter (ArchivedHashMap.mk 2 [0, 1] [((0 : Nat), (5 : Nat)), (1, 7)])
      = [(0, 5), (1, 7)] ∧
    ([((0 : Nat), (5 : Nat)), (1, 7)] : List (Nat × Nat)).length = 2 ∧
    List.Perm [((0 : Nat), (5 : Nat)), (1, 7)] [(0, 5), (1, 7)] :=
  iteration_complete (fun k : Nat => k) (fun s k => s + k)
    [(0, 5), (1, 7)] 2 [0, 1] [(0, 5), (1, 7)]
    (by decide) (by decide) (by decide) (by decide)

/-- Helper for C3: a two-element input whose keys share their first-level
bucket and collide under the second-level hash for every seed exhausts
the whole seed range; the source then leaves the bucket unplaced and
panics at the Option::unwrap over the entry slots, modelled by none. -/
theorem serialize_seed_exhausted_aux
    (h1 : κ → Nat) (h2 : Nat → κ → Nat) (k1 k2 : κ) (v1 v2 : ν)
    (hcol : h1 k1 % 2 = h1 k2 % 2)
    (hsame : ∀ s : Nat, h2 s k1 % 2 = h2 s k2 % 2) :
    serialize_from_iter h1 h2 [(k1, v1), (k2, v2)] 2 = none := by
  have hd1 : (h1 k1 % 2) % 4294967296 = h1 k1 % 2 :=
    Nat.mod_eq_of_lt (by have := Nat.mod_lt (h1 k1) (by omega : 0 < 2); omega)
  have hd2 : (h1 k2 % 2) % 4294967296 = h1 k1 % 2 := by
    rw [← hcol]
    exact hd1
  have hdisp : displacesOf h1 2 [(k1, v1), (k2, v2)]
      = [(h1 k1 % 2, (k1, v1)), (h1 k1 % 2, (k2, v2))] := by
    rw [displacesOf]
    simp [hd1, hd2]
  have hbs : bucket_size [(h1 k1 % 2, (k1, v1)), (h1 k1 % 2, (k2, v2))] (h1 k1 % 2)
      = 2 := by
    simp [bucket_size, List.countP_cons]
  have hsorted : sortByKey
      (chd_le (bucket_size [(h1 k1 % 2, (k1, v1)), (h1 k1 % 2, (k2, v2))]))
      [(h1 k1 % 2, (k1, v1)), (h1 k1 % 2, (k2, v2))]
      = [(h1 k1 % 2, (k1, v1)), (h1 k1 % 2, (k2, v2))] := by
    rw [sortByKey, sortByKey, sortByKey, insertSorted, insertSorted]
    have hle : chd_le (bucket_size [(h1 k1 % 2, (k1, v1)), (h1 k1 % 2, (k2, v2))])
        (h1 k1 % 2, (k1, v1)) (h1 k1 % 2, (k2, v2)) = true :=
      chd_le_of_fst_eq rfl
    rw [if_pos hle]
  have hgetD : ∀ i : Nat,
      (List.replicate 2 (none : Option (κ × ν))).getD i none = none := by
    intro i
    rw [List.getD_eq_getElem?_getD, List.getElem?_replicate]
    split
    · rfl
    · rfl
  have htry : ∀ t : Nat, trySeed h2 2 (List.replicate 2 none) t
      [(h1 k1 % 2, (k1, v1)), (h1 k1 % 2, (k2, v2))] [] = none := by
    intro t
    have hi2 : h2 t k2 % 2 = h2 t k1 % 2 := (hsame t).symm
    simp [trySeed, hgetD, hi2]
  rw [serialize_from_iter]
  rw [if_neg (by simp)]
  rw [hdisp, hsorted]
  have hlen2 : ([(k1, v1), (k2, v2)] : List (κ × ν)).length = 1 + 1 := rfl
  rw [hlen2, placeBuckets]
  rw [if_pos (by rw [hbs]; omega)]
  rw [hbs]
  have htake2 : List.take 2 [(h1 k1 % 2, (k1, v1)), (h1 k1 % 2, (k2, v2))]
      = [(h1 k1 % 2, (k1, v1)), (h1 k1 % 2, (k2, v2))] := rfl
  rw [htake2, findSeed_eq_none htry]
  rfl

/-- C3 counterexample: two distinct keys whose hash writes coincide (a
legal Hash implementation) make every seed fail; construction then
returns the panic outcome none, not a SeedExhausted error carrying a
bucket identifier (no such error exists in the code). -/
theorem seed_exhausted_counterexample :
    serialize_from_iter (fun _ : Nat => 0) (fun s _ => s) [(0, 10), (1, 11)] 2
      = none :=
  serialize_seed_exhausted_aux (fun _ : Nat => 0) (fun s _ => s) 0 1 10 11 rfl
    (fun _ => rfl)

/-- C3 (amended): when a multi-member bucket admits no seed in the whole
range, the placement loop silently skips the bucket and
serialize_from_iter subsequently panics unwrapping the unplaced entry
slots (the model's none); it does not return a SeedExhausted error and
reports no bucket identifier.  Proved for every two-element input whose
keys collide on the first hash and on the second hash at every seed. -/
theorem seed_exhaustion_panics
    (h1 : κ → Nat) (h2 : Nat → κ → Nat) (k1 k2 : κ) (v1 v2 : ν)
    (hcol : h1 k1 % 2 = h1 k2 % 2)
    (hsame : ∀ s : Nat, h2 s k1 % 2 = h2 s k2 % 2) :
    serialize_from_iter h1 h2 [(k1, v1), (k2, v2)] 2 = none :=
  serialize_seed_exhausted_aux h1 h2 k1 k2 v1 v2 hcol hsame

/-- Witness for the amended C3 on a concrete degenerate hash. -/
theorem seed_exhaustion_panics_witness :
    serialize_from_iter (fun _ : Nat => 1) (fun s _ => s + 1) [(2, 20), (3, 30)] 2
      = none :=
  seed_exhaustion_panics (fun _ : Nat => 1) (fun s _ => s + 1) 2 3 20 30 rfl
    (fun _ => rfl)

/-- C5 counterexample: in the archive built from two keys that share
bucket 0 (n = 2), the displacement of the empty bucket 1 is the sentinel
0xFFFFFFFF, whose high bit is set although the bucket size is 0, so
"displacements[d] has its high bit set iff bucket d has size > 1" fails
as stated. -/
theorem displacement_encoding_counterexample :
    serialize_from_iter (fun _ : Nat => 0) (fun _ k => k) [(0, 10), (1, 11)] 2
      = some ([2147483648, 4294967295], [(0, 10), (1, 11)]) ∧
    ¬(∀ d : Nat, d < 2 →
      ((([2147483648, 4294967295] : List Nat).getD d 0).testBit 31 = true ↔
        1 < bucket_size (displacesOf (fun _ : Nat => 0) 2 [(0, 10), (1, 11)]) d)) :=
  ⟨by decide, by decide⟩

/-- C5 (amended): in every archive produced from n unique-key pairs with
n < 2^31, the displacements array has exactly n slots; empty buckets
have the sentinel; singleton buckets have a direct index below n with
clear high bit; buckets of size > 1 have a value in the seed range
[2^31, 2^32) with set high bit (possibly equal to the sentinel, since
the seed range contains u32::MAX); and among non-sentinel words the high
bit is set exactly for buckets of size > 1. -/
theorem displacement_encoding
    (h1 : κ → Nat) (h2 : Nat → κ → Nat) (pairs : List (κ × ν)) (n : Nat)
    (ds : List Nat) (es : List (κ × ν))
    (hn31 : n < 2147483648) (hlen : pairs.length = n)
    (hnodup : (pairs.map fun p => p.1).Nodup)
    (hrun : serialize_from_iter h1 h2 pairs n = some (ds, es)) :
    ds.length = n ∧
    ∀ d : Nat, d < n →
      (bucket_size (displacesOf h1 n pairs) d = 0 → ds[d]? = some 4294967295) ∧
      (bucket_size (displacesOf h1 n pairs) d = 1 →
        ∃ D, ds[d]? = some D ∧ D < n ∧ D.testBit 31 = false) ∧
      (1 < bucket_size (displacesOf h1 n pairs) d →
        ∃ D, ds[d]? = some D ∧ 2147483648 ≤ D ∧ D < 4294967296 ∧
          D.testBit 31 = true) ∧
      (∀ D : Nat, ds[d]? = some D → ¬D = 4294967295 →
        (D.testBit 31 = true ↔ 1 < bucket_size (displacesOf h1 n pairs) d)) := by
  rcases Nat.eq_zero_or_pos n with rfl | hn
  · obtain rfl : pairs = [] := List.eq_nil_of_length_eq_zero hlen
    have h0 : serialize_from_iter h1 h2 ([] : List (κ × ν)) 0 = some ([], []) := rfl
    rw [h0] at hrun
    have h' := Option.some.inj hrun
    obtain rfl : ([] : List Nat) = ds := congrArg Prod.fst h'
    refine ⟨rfl, ?_⟩
    intro d hd
    omega
  · rcases serialize_from_iter_spec hn (by omega) hlen hrun with
      ⟨_, hds_len, _, _, _, henc⟩
    refine ⟨hds_len, ?_⟩
    intro d hd
    rcases henc d hd with ⟨h0, hne⟩
    have hsize1 : bucket_size (displacesOf h1 n pairs) d = 1 →
        ∃ D, ds[d]? = some D ∧ D < n ∧ D.testBit 31 = false := by
      intro hone
      rcases hne (by omega) with ⟨D, hD, hcase⟩
      rcases hcase with ⟨hgt, _⟩ | ⟨_, hlt⟩
      · omega
      · exact ⟨D, hD, hlt, testBit31_false (by omega)⟩
    have hsize2 : 1 < bucket_size (displacesOf h1 n pairs) d →
        ∃ D, ds[d]? = some D ∧ 2147483648 ≤ D ∧ D < 4294967296 ∧
          D.testBit 31 = true := by
      intro hgt
      rcases hne (by omega) with ⟨D, hD, hcase⟩
      rcases hcase with ⟨_, hlo, hhi⟩ | ⟨heq1, _⟩
      · exact ⟨D, hD, hlo, hhi, testBit31_true hlo hhi⟩
      · omega
    refine ⟨h0, hsize1, hsize2, ?_⟩
    intro D hD hnsent
    constructor
    · intro hbit
      by_contra hng
      rcases Nat.eq_zero_or_pos (bucket_size (displacesOf h1 n pairs) d) with hz | hpos
      · rw [h0 hz] at hD
        exact hnsent (Option.some.inj hD).symm
      · have hone : bucket_size (displacesOf h1 n pairs) d = 1 := by omega
        rcases hsize1 hone with ⟨D', hD', _, hbit'⟩
        rw [hD'] at hD
        obtain rfl : D' = D := Option.some.inj hD
        rw [hbit'] at hbit
        exact absurd hbit (by simp)
    · intro hgt
      rcases hsize2 hgt with ⟨D', hD', _, _, hbit'⟩
      rw [hD'] at hD
      obtain rfl : D' = D := Option.some.inj hD
      exact hbit'

/-- Witness for the amended C5 on a concrete two-singleton construction. -/
theorem displacement_encoding_witness :
    ([0, 1] : List Nat).length = 2 ∧
    ((0 : Nat).testBit 31 = true ↔
      1 < bucket_size (displacesOf (fun k : Nat => k) 2 [(0, 5), (1, 7)]) 0) := by
  have h := displacement_encoding (fun k : Nat => k) (fun s k => s + k)
    [(0, 5), (1, 7)] 2 [0, 1] [(0, 5), (1, 7)]
    (by decide) (by decide) (by decide) (by decide)
  exact ⟨h.1, (h.2 0 (by decide)).2.2.2 0 (by decide) (by decide)⟩

/-- C6: construction is deterministic — equal inputs in the same order
give equal archive content (the model is a pure function of the input
list) — and the seed recorded for a multi-member bucket is the smallest
qualifying seed of the range 0x80000000..=0xFFFFFFFF: the search
succeeds at the returned seed and fails at every smaller seed of the
range. -/
theorem construction_deterministic (h1 : κ → Nat) (h2 : Nat → κ → Nat) :
    (∀ (pairs1 pairs2 : List (κ × ν)) (len : Nat), pairs1 = pairs2 →
      serialize_from_iter h1 h2 pairs1 len = serialize_from_iter h1 h2 pairs2 len) ∧
    (∀ (len : Nat) (entries : List (Option (κ × ν)))
      (bucket : List (Nat × κ × ν)) (seed : Nat) (assignments : List Nat),
      findSeed h2 len entries bucket 2147483648 2147483648
        = some (seed, assignments) →
      2147483648 ≤ seed ∧ seed < 4294967296 ∧
        trySeed h2 len entries seed bucket [] = some assignments ∧
        ∀ t : Nat, 2147483648 ≤ t → t < seed →
          trySeed h2 len entries t bucket [] = none) := by
  constructor
  · intro pairs1 pairs2 len h
    rw [h]
  · intro len entries bucket seed assignments h
    rcases findSeed_eq_some h with ⟨ha, hb, hc, hd⟩
    exact ⟨ha, by omega, hc, hd⟩

/-- Witness for C6: a concrete seed search whose first seed fails, so
that the returned seed 0x80000001 is not the range minimum and the
smallest-seed property is exercised non-vacuously at t = 0x80000000. -/
theorem construction_deterministic_witness :
    serialize_from_iter (fun k : Nat => k) (fun s k : Nat => s + k)
        [((0 : Nat), (1 : Nat))] 1
      = serialize_from_iter (fun k : Nat => k) (fun s k : Nat => s + k)
        [((0 : Nat), (1 : Nat))] 1 ∧
    trySeed (fun s k : Nat => if s = 2147483648 then 0 else k) 2
      (List.replicate 2 (none : Option (Nat × Nat))) 2147483649
      [(0, (0, 10)), (0, (1, 11))] [] = some [0, 1] ∧
    trySeed (fun s k : Nat => if s = 2147483648 then 0 else k) 2
      (List.replicate 2 (none : Option (Nat × Nat))) 2147483648
      [(0, (0, 10)), (0, (1, 11))] [] = none := by
  have h := @construction_deterministic Nat Nat _ (fun k : Nat => k)
    (fun s k : Nat => if s = 2147483648 then 0 else k)
  have hd := @construction_deterministic Nat Nat _ (fun k : Nat => k)
    (fun s k : Nat => s + k)
  have hmin := h.2 2 (List.replicate 2 none) [(0, (0, 10)), (0, (1, 11))]
    2147483649 [0, 1] (by decide)
  exact ⟨hd.1 [((0 : Nat), (1 : Nat))] [((0 : Nat), (1 : Nat))] 1 rfl,
    hmin.2.2.1, hmin.2.2.2 2147483648 (by decide) (by decide)⟩

/-- C7: the builder's processing order is the stable sort of the
(bucket-id, entry) list by (descending bucket size, ascending bucket
id): it is a permutation of the gathered list, pairwise ordered by that
key, equal-id entries keep their input order (filter equality), and all
entries of one bucket are contiguous (betweenness of bucket ids). -/
theorem bucket_processing_order (h1 : κ → Nat) (pairs : List (κ × ν)) (n : Nat) :
    List.Perm
      (sortByKey (chd_le (bucket_size (displacesOf h1 n pairs)))
        (displacesOf h1 n pairs))
      (displacesOf h1 n pairs) ∧
    (sortByKey (chd_le (bucket_size (displacesOf h1 n pairs)))
      (displacesOf h1 n pairs)).Pairwise (fun x y =>
        bucket_size (displacesOf h1 n pairs) y.1
            < bucket_size (displacesOf h1 n pairs) x.1 ∨
          (bucket_size (displacesOf h1 n pairs) x.1
              = bucket_size (displacesOf h1 n pairs) y.1 ∧ x.1 ≤ y.1)) ∧
    (∀ d : Nat,
      (sortByKey (chd_le (bucket_size (displacesOf h1 n pairs)))
        (displacesOf h1 n pairs)).filter (fun w => w.1 == d)
      = (displacesOf h1 n pairs).filter (fun w => w.1 == d)) ∧
    (∀ i j l : Nat, ∀ x w y : Nat × κ × ν, i < j → j < l →
      (sortByKey (chd_le (bucket_size (displacesOf h1 n pairs)))
        (displacesOf h1 n pairs))[i]? = some x →
      (sortByKey (chd_le (bucket_size (displacesOf h1 n pairs)))
        (displacesOf h1 n pairs))[j]? = some w →
      (sortByKey (chd_le (bucket_size (displacesOf h1 n pairs)))
        (displacesOf h1 n pairs))[l]? = some y →
      x.1 = y.1 → w.1 = x.1) := by
  have hpw : (sortByKey (chd_le (bucket_size (displacesOf h1 n pairs)))
      (displacesOf h1 n pairs)).Pairwise
      (fun a b => chd_le (bucket_size (displacesOf h1 n pairs)) a b = true) :=
    pairwise_sortByKey chd_le_trans (fun a b => chd_le_total a b) _
  refine ⟨sortByKey_perm _ _, ?_, ?_, ?_⟩
  · refine hpw.imp ?_
    intro a b hab
    simpa [chd_le] using hab
  · intro d
    refine filter_sortByKey ?_ _
    intro a b ha hb
    refine chd_le_of_fst_eq ?_
    rw [beq_iff_eq] at ha hb
    rw [ha, hb]
  · intro i j l x w y hij hjl hx hw hy hxy
    rcases List.getElem?_eq_some.mp hx with ⟨hil, hxe⟩
    rcases List.getElem?_eq_some.mp hw with ⟨hjle, hwe⟩
    rcases List.getElem?_eq_some.mp hy with ⟨hll, hye⟩
    have hget := List.pairwise_iff_getElem.mp hpw
    have h1' := hget i j hil hjle hij
    have h2' := hget j l hjle hll hjl
    rw [hxe, hwe] at h1'
    rw [hwe, hye] at h2'
    have h3' : chd_le (bucket_size (displacesOf h1 n pairs)) y x = true :=
      chd_le_of_fst_eq hxy.symm
    have h4' : chd_le (bucket_size (displacesOf h1 n pairs)) w x = true :=
      chd_le_trans w y x h2' h3'
    exact chd_le_antisymm h4' h1'

/-- Witness for C7 on a concrete three-element input whose keys all land
in bucket 0: the stable sort preserves their order and the betweenness
property is exercised at positions 0 < 1 < 2. -/
theorem bucket_processing_order_witness :
    (sortByKey (chd_le (bucket_size (displacesOf (fun _ : Nat => 0) 3
        [(0, 5), (1, 7), (2, 9)])))
      (displacesOf (fun _ : Nat => 0) 3 [(0, 5), (1, 7), (2, 9)])).filter
        (fun w => w.1 == 0)
      = (displacesOf (fun _ : Nat => 0) 3 [(0, 5), (1, 7), (2, 9)]).filter
        (fun w => w.1 == 0) ∧
    ((0, ((1 : Nat), (7 : Nat))) : Nat × Nat × Nat).1
      = ((0, ((0 : Nat), (5 : Nat))) : Nat × Nat × Nat).1 := by
  have h := bucket_processing_order (fun _ : Nat => 0) [(0, 5), (1, 7), (2, 9)] 3
  refine ⟨h.2.2.1 0, ?_⟩
  exact h.2.2.2 0 1 2 (0, (0, 5)) (0, (1, 7)) (0, (2, 9))
    (by decide) (by decide) (by decide) (by decide) (by decide) (by decide)

/-- C8: a singleton bucket is placed at the lowest empty slot at or
after first_empty; under the invariant that every slot below
first_empty is filled (multi-member buckets are placed before any
singleton), that slot is the lowest empty slot of the whole entries
array; its index is written to the bucket's displacement and
first_empty advances past the filled slot. -/
theorem singleton_placement (h2 : Nat → κ → Nat) (len : Nat) (bs : Nat → Nat)
    (fuel : Nat) (z : Nat × κ × ν) (rest : List (Nat × κ × ν))
    (entries : List (Option (κ × ν))) (displs : List Nat) (fe offset : Nat)
    (hb : bs z.1 = 1)
    (hlow : ∀ j : Nat, j < fe → ¬entries[j]? = some none)
    (hfind : (entries.drop fe).findIdx? (fun e => e.isNone) = some offset) :
    entries[fe + offset]? = some none ∧
    (∀ j : Nat, j < fe + offset → ¬entries[j]? = some none) ∧
    placeBuckets h2 len bs (fuel + 1) (z :: rest) entries displs fe =
      placeBuckets h2 len bs fuel rest (entries.set (fe + offset) (some z.2))
        (displs.set z.1 ((fe + offset) % 4294967296)) (fe + offset + 1) := by
  rcases List.findIdx?_eq_some_iff_getElem.mp hfind with ⟨hofflt, hnone, hmin⟩
  have hfen : fe + offset < entries.length := by
    rw [List.length_drop] at hofflt
    omega
  have hslot : entries[fe + offset]? = some none := by
    rw [List.getElem?_eq_getElem hfen]
    have hd := List.getElem_drop entries (i := fe) (j := offset) (h := hofflt)
    rw [hd] at hnone
    rw [Option.isNone_iff_eq_none] at hnone
    rw [hnone]
  refine ⟨hslot, ?_, ?_⟩
  · intro j hj
    rcases Nat.lt_or_ge j fe with hjf | hjf
    · exact hlow j hjf
    · intro hcontra
      have hjoff : j - fe < offset := by omega
      have hjlt : j - fe < (entries.drop fe).length := by
        rw [List.length_drop]
        omega
      have hne' := hmin (j - fe) hjoff
      have hq : (entries.drop fe)[j - fe]? = some ((entries.drop fe)[j - fe]) :=
        List.getElem?_eq_getElem hjlt
      rw [List.getElem?_drop] at hq
      have heq : fe + (j - fe) = j := by omega
      rw [heq, hcontra] at hq
      have hv : (entries.drop fe)[j - fe] = none := (Option.some.inj hq).symm
      rw [← Option.isNone_iff_eq_none] at hv
      exact hne' hv
  · rw [placeBuckets]
    rw [if_neg (by omega), if_neg (by omega), hfind]

/-- Witness for C8 on a concrete step with first_empty = 1. -/
theorem singleton_placement_witness :
    ([some ((9 : Nat), (9 : Nat)), none] : List (Option (Nat × Nat)))[1 + 0]?
      = some none ∧
    ¬([some ((9 : Nat), (9 : Nat)), none] : List (Option (Nat × Nat)))[0]?
      = some none ∧
    placeBuckets (fun s k : Nat => s + k) 2 (fun d => if d = 0 then 1 else 0)
        (0 + 1) [(0, ((3 : Nat), (33 : Nat)))] [some (9, 9), none] [7, 7] 1 =
      placeBuckets (fun s k : Nat => s + k) 2 (fun d => if d = 0 then 1 else 0)
        0 [] (([some ((9 : Nat), (9 : Nat)), none]).set (1 + 0) (some (3, 33)))
        (([7, 7] : List Nat).set 0 ((1 + 0) % 4294967296)) (1 + 0 + 1) := by
  have h := singleton_placement (fun s k : Nat => s + k) 2
    (fun d => if d = 0 then 1 else 0) 0 (0, (3, 33)) []
    [some (9, 9), none] [7, 7] 1 0 (by decide) (by decide) (by decide)
  exact ⟨h.1, h.2.1 0 (by decide), h.2.2⟩

/-- C4: on every non-empty well-formed archive the lookup follows
exactly the dispatch protocol of the spec (index_spec), and performs one
hash computation when the displacement is the sentinel (with no key
comparison) and otherwise one hash for a direct index or two for a
seed, with exactly one key comparison. -/
theorem lookup_dispatch (h1 : κ → Nat) (h2 : Nat → κ → Nat)
    (m : ArchivedHashMap κ ν) (k : κ)
    (hn : 0 < m.len)
    (hd_len : m.displace.length = m.len)
    (he_len : m.entries.length = m.len)
    (hrange : ∀ D ∈ m.displace, D < 4294967296)
    (hdirect : ∀ D ∈ m.displace, ¬D = 4294967295 → D.testBit 31 = false →
      D < m.len) :
    index h1 h2 m k = some (index_spec h1 h2 m k) ∧
    1 ≤ (index_cost h1 h2 m k).1 ∧ (index_cost h1 h2 m k).1 ≤ 2 ∧
    (index_cost h1 h2 m k).2 ≤ 1 ∧
    (m.displace.getD (h1 k % m.len) 0 = 4294967295 →
      index_cost h1 h2 m k = (1, 0) ∧ index_spec h1 h2 m k = none) := by
  have hdix : h1 k % m.len < m.displace.length := by
    rw [hd_len]
    exact Nat.mod_lt _ hn
  have hgd : m.displace.getD (h1 k % m.len) 0 = m.displace[h1 k % m.len] := by
    rw [List.getD_eq_getElem?_getD, List.getElem?_eq_getElem hdix]
    rfl
  have hget : m.displace[h1 k % m.len]? = some (m.displace[h1 k % m.len]) :=
    List.getElem?_eq_getElem hdix
  have hmem : m.displace[h1 k % m.len] ∈ m.displace := List.getElem_mem hdix
  by_cases hsent : m.displace[h1 k % m.len] = 4294967295
  · have hidx : index h1 h2 m k = some none := by
      rw [index, if_neg (by omega), hget]
      simp only
      rw [if_pos hsent]
    have hspec : index_spec h1 h2 m k = none := by
      rw [index_spec]
      simp only [hgd]
      rw [if_pos hsent]
    have hcost : index_cost h1 h2 m k = (1, 0) := by
      rw [index_cost, if_neg (by omega), hget]
      simp only
      rw [if_pos hsent]
    rw [hidx, hspec, hcost]
    exact ⟨rfl, by omega, by omega, by omega, fun _ => ⟨rfl, rfl⟩⟩
  · by_cases hbit : (m.displace[h1 k % m.len]).testBit 31 = true
    · have hspec_cond : ¬m.displace[h1 k % m.len] < 2147483648 := by
        intro hlt
        rw [testBit31_false hlt] at hbit
        exact absurd hbit (by simp)
      have hc : h2 (m.displace[h1 k % m.len]) k % m.len < m.entries.length := by
        rw [he_len]
        exact Nat.mod_lt _ hn
      have hce : m.entries[h2 (m.displace[h1 k % m.len]) k % m.len]?
          = some (m.entries[h2 (m.displace[h1 k % m.len]) k % m.len]) :=
        List.getElem?_eq_getElem hc
      have hidx : index h1 h2 m k
          = if (m.entries[h2 (m.displace[h1 k % m.len]) k % m.len]).1 = k
            then some (some (h2 (m.displace[h1 k % m.len]) k % m.len))
            else some none := by
        rw [index, if_neg (by omega), hget]
        simp only
        rw [if_neg hsent, if_pos hbit, hce]
      have hspec : index_spec h1 h2 m k
          = if (m.entries[h2 (m.displace[h1 k % m.len]) k % m.len]).1 = k
            then some (h2 (m.displace[h1 k % m.len]) k % m.len)
            else none := by
        rw [index_spec]
        simp only [hgd]
        rw [if_neg hsent, if_neg hspec_cond, hce]
      have hcost : index_cost h1 h2 m k = (2, 1) := by
        rw [index_cost, if_neg (by omega), hget]
        simp only
        rw [if_neg hsent, if_pos hbit, hce, if_pos hbit]
      rw [hidx, hspec, hcost]
      refine ⟨(apply_ite some _ _ _).symm, by omega, by omega, by omega, ?_⟩
      intro hs
      rw [hgd] at hs
      exact absurd hs hsent
    · have hbitf : (m.displace[h1 k % m.len]).testBit 31 = false := by
        cases hb : (m.displace[h1 k % m.len]).testBit 31
        · rfl
        · exact absurd hb hbit
      have hlt31 : m.displace[h1 k % m.len] < 2147483648 := by
        by_contra hge
        rw [testBit31_true (by omega) (hrange _ hmem)] at hbitf
        exact absurd hbitf (by simp)
      have hc : m.displace[h1 k % m.len] < m.entries.length := by
        rw [he_len]
        exact hdirect _ hmem hsent hbitf
      have hce : m.entries[m.displace[h1 k % m.len]]?
          = some (m.entries[m.displace[h1 k % m.len]]) :=
        List.getElem?_eq_getElem hc
      have hidx : index h1 h2 m k
          = if (m.entries[m.displace[h1 k % m.len]]).1 = k
            then some (some (m.displace[h1 k % m.len]))
            else some none := by
        rw [index, if_neg (by omega), hget]
        simp only
        rw [if_neg hsent, hbitf]
        simp only [Bool.false_eq_true, if_false]
        rw [hce]
      have hspec : index_spec h1 h2 m k
          = if (m.entries[m.displace[h1 k % m.len]]).1 = k
            then some (m.displace[h1 k % m.len])
            else none := by
        rw [index_spec]
        simp only [hgd]
        rw [if_neg hsent, if_pos hlt31, hce]
      have hcost : index_cost h1 h2 m k = (1, 1) := by
        rw [index_cost, if_neg (by omega), hget]
        simp only
        rw [if_neg hsent, hbitf]
        simp only [Bool.false_eq_true, if_false]
        rw [hce]
      rw [hidx, hspec, hcost]
      refine ⟨(apply_ite some _ _ _).symm, by omega, by omega, by omega, ?_⟩
      intro hs
      rw [hgd] at hs
      exact absurd hs hsent

/-- Witness for C4 on a concrete well-formed archive whose probe hits
the sentinel. -/
theorem lookup_dispatch_witness :
    index (fun k : Nat => k) (fun s k : Nat => s + k)
        (ArchivedHashMap.mk 2 [4294967295, 0] [((0 : Nat), (5 : Nat)), (1, 7)]) 0
      = some (index_spec (fun k : Nat => k) (fun s k : Nat => s + k)
        (ArchivedHashMap.mk 2 [4294967295, 0] [((0 : Nat), (5 : Nat)), (1, 7)]) 0) ∧
    index_cost (fun k : Nat => k) (fun s k : Nat => s + k)
        (ArchivedHashMap.mk 2 [4294967295, 0] [((0 : Nat), (5 : Nat)), (1, 7)]) 0
      = (1, 0) ∧
    index_spec (fun k : Nat => k) (fun s k : Nat => s + k)
        (ArchivedHashMap.mk 2 [4294967295, 0] [((0 : Nat), (5 : Nat)), (1, 7)]) 0
      = none := by
  have h := lookup_dispatch (fun k : Nat => k) (fun s k : Nat => s + k)
    (ArchivedHashMap.mk 2 [4294967295, 0] [((0 : Nat), (5 : Nat)), (1, 7)]) 0
    (by decide) (by decide) (by decide) (by decide) (by decide)
  exact ⟨h.1, (h.2.2.2.2 (by decide)).1, (h.2.2.2.2 (by decide)).2⟩

/-- C10: whenever the shared lookup routine completes (does not panic),
the derived operations agree: contains_key is true exactly when get
finds a value, get_key_value returns the stored key (equal to the probe
key) paired with the value get returns, and the Index operation returns
the same value as get, failing exactly when get reports absence. -/
theorem derived_ops_consistent (h1 : κ → Nat) (h2 : Nat → κ → Nat)
    (m : ArchivedHashMap κ ν) (k : κ)
    (h : ¬index h1 h2 m k = none) :
    (contains_key h1 h2 m k = some true ↔
      ∃ v, get h1 h2 m k = some (some v)) ∧
    (contains_key h1 h2 m k = some false ↔ get h1 h2 m k = some none) ∧
    (∀ (q : κ) (v : ν), get_key_value h1 h2 m k = some (some (q, v)) ↔
      (q = k ∧ get h1 h2 m k = some (some v))) ∧
    (∀ v : ν, index_op h1 h2 m k = some v ↔ get h1 h2 m k = some (some v)) ∧
    (index_op h1 h2 m k = none ↔ get h1 h2 m k = some none) := by
  rcases hidx : index h1 h2 m k with _ | oi
  · exact absurd hidx h
  · rcases oi with _ | i
    · have hget : get h1 h2 m k = some none := get_of_index_absent hidx
      have hck : contains_key h1 h2 m k = some false := by
        rw [contains_key, hidx]
        rfl
      have hgkv : get_key_value h1 h2 m k = some none := by
        rw [get_key_value, hidx]
      have hio : index_op h1 h2 m k = none := by
        rw [index_op, hget]
        rfl
      refine ⟨?_, ?_, ?_, ?_, ?_⟩
      · rw [hck, hget]
        constructor
        · intro hc
          exact absurd (Option.some.inj hc) (by simp)
        · rintro ⟨v, hv⟩
          exact absurd (Option.some.inj hv) (by simp)
      · rw [hck, hget]
        exact iff_of_true rfl rfl
      · intro q v
        rw [hgkv, hget]
        constructor
        · intro hg
          exact absurd (Option.some.inj hg) (by simp)
        · rintro ⟨_, hv⟩
          exact absurd (Option.some.inj hv) (by simp)
      · intro v
        rw [hio, hget]
        constructor
        · intro hv
          exact absurd hv (by simp)
        · intro hv
          exact absurd (Option.some.inj hv) (by simp)
      · rw [hio, hget]
        exact iff_of_true rfl rfl
    · rcases index_some_inv hidx with ⟨e, he, hk⟩
      have hget : get h1 h2 m k = some (some e.2) := by
        rw [get, hidx]
        simp only [he]
      have hck : contains_key h1 h2 m k = some true := by
        rw [contains_key, hidx]
        rfl
      have hgkv : get_key_value h1 h2 m k = some (some e) := by
        rw [get_key_value, hidx]
        simp only [he]
      have hio : index_op h1 h2 m k = some e.2 := by
        rw [index_op, hget]
        rfl
      refine ⟨?_, ?_, ?_, ?_, ?_⟩
      · rw [hck, hget]
        exact ⟨fun _ => ⟨e.2, rfl⟩, fun _ => rfl⟩
      · rw [hck, hget]
        constructor
        · intro hc
          exact absurd (Option.some.inj hc) (by simp)
        · intro hv
          exact absurd (Option.some.inj hv) (by simp)
      · intro q v
        rw [hgkv, hget]
        constructor
        · intro hg
          have he2 : e = (q, v) := Option.some.inj (Option.some.inj hg)
          refine ⟨?_, ?_⟩
          · rw [← hk, he2]
          · rw [he2]
        · rintro ⟨hq, hv⟩
          have hv2 : e.2 = v := Option.some.inj (Option.some.inj hv)
          have he2 : e = (q, v) := by
            rw [Prod.ext_iff]
            exact ⟨by rw [hk, hq], hv2⟩
          rw [he2]
      · intro v
        rw [hio, hget]
        constructor
        · intro hv
          rw [Option.some.inj hv]
        · intro hv
          rw [Option.some.inj (Option.some.inj hv)]
      · rw [hio, hget]
        constructor
        · intro hv
          exact absurd hv (by simp)
        · intro hv
          exact absurd (Option.some.inj hv) (by simp)

/-- Witness for C10 on a concrete one-entry archive. -/
theorem derived_ops_consistent_witness :
    (contains_key (fun k : Nat => k) (fun s k : Nat => s + k)
        (ArchivedHashMap.mk 1 [0] [((0 : Nat), (5 : Nat))]) 0 = some false ↔
      get (fun k : Nat => k) (fun s k : Nat => s + k)
        (ArchivedHashMap.mk 1 [0] [((0 : Nat), (5 : Nat))]) 0 = some none) ∧
    (get_key_value (fun k : Nat => k) (fun s k : Nat => s + k)
        (ArchivedHashMap.mk 1 [0] [((0 : Nat), (5 : Nat))]) 0
          = some (some (0, 5)) ↔
      ((0 : Nat) = 0 ∧ get (fun k : Nat => k) (fun s k : Nat => s + k)
        (ArchivedHashMap.mk 1 [0] [((0 : Nat), (5 : Nat))]) 0
          = some (some 5))) ∧
    (index_op (fun k : Nat => k) (fun s k : Nat => s + k)
        (ArchivedHashMap.mk 1 [0] [((0 : Nat), (5 : Nat))]) 0 = some 5 ↔
      get (fun k : Nat => k) (fun s k : Nat => s + k)
        (ArchivedHashMap.mk 1 [0] [((0 : Nat), (5 : Nat))]) 0 = some (some 5)) := by
  have h := derived_ops_consistent (fun k : Nat => k) (fun s k : Nat => s + k)
    (ArchivedHashMap.mk 1 [0] [((0 : Nat), (5 : Nat))]) 0 (by decide)
  exact ⟨h.2.1, h.2.2.1 0 5, h.2.2.2.1 5⟩

end Claims

end Rkyv
